import Mathlib

/-!
Verification of the sparse-event-to-dense-panel materialization engine of the
QuantizationFactor repository.  The Python sources build per-factor panels
(rows = trading calendar, columns = security universe) from sparse records,
forward-filling the last known value, and extend persisted panels
incrementally.  We embed the relevant pipelines shallowly:

* dates, security codes and factor names are natural numbers (dates in
  `YYYYMMDD` form compare identically as numbers and as strings);
* a Python `dict` is an insertion-ordered association list (`dinsert`
  overwrites in place or appends, like a dict assignment);
* a pandas `DataFrame` is a `Frame`: positional row labels, column labels and
  a cell function addressed by row position and column label (positions keep
  duplicate row labels representable, as `DataFrame.append` can produce them);
* `fillna(method='ffill')` is a per-column backward scan over row positions;
* `reindex` fails (pandas `ValueError`, cannot reindex from a duplicate axis)
  when the source axis carries duplicate labels, which we model with `Option`;
* the database fetches are parameters: each pipeline takes the record list
  the corresponding SQL query returned, already in the sorted order the
  source establishes with `sort_values` right after fetching.
-/

/-- Python dict read: value of the entry with the given key. -/
def alookup {κ α : Type} [DecidableEq κ] (m : List (κ × α)) (k : κ) : Option α :=
  (m.find? (fun p => p.1 = k)).map (·.2)

/-- Python dict write: overwrite the entry in place if the key exists, else
append the new entry (insertion order is preserved, as for a Python dict). -/
def dinsert {κ α : Type} [DecidableEq κ] (m : List (κ × α)) (k : κ) (v : α) :
    List (κ × α) :=
  match m with
  | [] => [(k, v)]
  | p :: ps => if p.1 = k then (k, v) :: ps else p :: dinsert ps k v

/-- Insert a key into an ascending duplicate-free list, keeping it ascending
and duplicate-free. -/
def sinsert (k : Nat) : List Nat → List Nat
  | [] => [k]
  | x :: xs => if k < x then k :: x :: xs else if k = x then x :: xs else x :: sinsert k xs

/-- Python `sorted(list(set(l)))`: the ascending duplicate-free enumeration of
the elements of `l`. -/
def sortedDedup (l : List Nat) : List Nat :=
  l.foldr sinsert []

/-- A pandas DataFrame: row labels in positional order, column labels, and a
cell function addressed by row position and column label.  Duplicate row
labels (possible after `append`) are faithfully representable because cells
are positional. -/
structure Frame (α : Type) where
  rowLabels : List Nat
  colLabels : List Nat
  entry : Nat → Nat → Option α

/-- Label-based cell access: the cell of the first row carrying label `d`, in
column `e`. -/
def Frame.cellAt {α : Type} (f : Frame α) (d : Nat) (e : Nat) : Option α :=
  (f.rowLabels.findIdx? (fun x => x = d)).bind (fun i => f.entry i e)

/-- One column position of `fillna(method='ffill')`: the cell itself if
present, else the nearest earlier present cell. -/
def ffillEntry {α : Type} (c : Nat → Option α) : Nat → Option α
  | 0 => c 0
  | i + 1 =>
    match c (i + 1) with
    | some v => some v
    | none => ffillEntry c i

/-- pandas `fillna(method='ffill')`: forward-fill every column down the rows. -/
def Frame.ffill {α : Type} (f : Frame α) : Frame α :=
  { f with entry := fun i e => ffillEntry (fun j => f.entry j e) i }

/-- pandas `DataFrame(dict_of_dicts, index=index, columns=cols)`: rows are the
given index, columns the given labels; a cell holds the inner-dict value at
the row label, provided the column label is a key of the outer dict. -/
def frameOfDictIC {α : Type} (dict : List (Nat × List (Nat × α))) (index : List Nat)
    (cols : List Nat) : Frame α :=
  { rowLabels := index
    colLabels := cols
    entry := fun i e =>
      (index.get? i).bind (fun d =>
        if cols.contains e then (alookup dict e).bind (fun dct => alookup dct d) else none) }

/-- pandas `DataFrame(dict_of_dicts, index=index)`: columns are the keys of
the outer dict, in insertion order. -/
def frameOfDictI {α : Type} (dict : List (Nat × List (Nat × α))) (index : List Nat) :
    Frame α :=
  frameOfDictIC dict index (dict.map (·.1))

/-- pandas `DataFrame(dict_of_dicts, columns=cols)`: the row index is the
ascending union of the inner-dict keys. -/
def frameOfDictC {α : Type} (dict : List (Nat × List (Nat × α))) (cols : List Nat) :
    Frame α :=
  frameOfDictIC dict (sortedDedup ((dict.map (fun p => p.2.map (·.1))).flatten)) cols

/-- pandas `reindex(index=index, columns=cols)`: rows and columns are selected
by label from the source frame; labels absent from the source give empty
cells.  pandas raises `ValueError` when an axis being reindexed from carries
duplicate labels, modelled by `none`. -/
def Frame.reindexRC {α : Type} (f : Frame α) (index : List Nat) (cols : List Nat) :
    Option (Frame α) :=
  if f.rowLabels.Nodup ∧ f.colLabels.Nodup then
    some
      { rowLabels := index
        colLabels := cols
        entry := fun i e =>
          (index.get? i).bind (fun d =>
            if f.colLabels.contains e then
              (f.rowLabels.findIdx? (fun x => x = d)).bind (fun j => f.entry j e)
            else none) }
  else none

/-- pandas `reindex(columns=cols)`: select columns by label; labels absent
from the source give empty cells.  The frames this is applied to have
duplicate-free column labels by construction, so the duplicate-axis error
cannot arise. -/
def Frame.reindexCols {α : Type} (f : Frame α) (cols : List Nat) : Frame α :=
  { f with
    colLabels := cols
    entry := fun i e => if f.colLabels.contains e then f.entry i e else none }

/-- pandas `p.append(q)`: rows of `p` followed by rows of `q`; columns are
aligned by label (identical labels keep their order, otherwise the sorted
union), and a row contributes empty cells in columns its own frame lacks. -/
def Frame.happend {α : Type} (p q : Frame α) : Frame α :=
  { rowLabels := p.rowLabels ++ q.rowLabels
    colLabels :=
      if p.colLabels = q.colLabels then p.colLabels
      else sortedDedup (p.colLabels ++ q.colLabels)
    entry := fun i e =>
      if i < p.rowLabels.length then
        (if p.colLabels.contains e then p.entry i e else none)
      else
        (if q.colLabels.contains e then q.entry (i - p.rowLabels.length) e else none) }

/-- Outcome of an `update_data` run: already up to date (no fetch, no write),
a successful write, or an uncaught exception. -/
inductive UpdResult (α : Type) where
  | noop : UpdResult α
  | wrote (f : Frame α) : UpdResult α
  | err : UpdResult α

/-- Observable for the exception outcome. -/
def UpdResult.isErr {α : Type} : UpdResult α → Bool
  | .err => true
  | _ => false

/-- Observable for the already-up-to-date outcome. -/
def UpdResult.isNoop {α : Type} : UpdResult α → Bool
  | .noop => true
  | _ => false

/-- Observable for the written frame. -/
def UpdResult.written {α : Type} : UpdResult α → Option (Frame α)
  | .wrote f => some f
  | _ => none

/-- `sorted(list(set(index) - set(rows)))`: the calendar dates not yet present
as rows of the persisted panel. -/
def newDates (index : List Nat) (rows : List Nat) : List Nat :=
  sortedDedup (index.filter (fun d => ¬ rows.contains d))

/-! ## HolderNumber (`a_share_holder_number.py`)

A record of `wind.ASHAREHOLDERNUMBER`: security code, announcement date
(the anchor key), period end date (only a sort tiebreak) and the holder
count.  `rewrite_data`/`update_data` walk the records sorted by
`(S_INFO_WINDCODE, ANN_DT, S_HOLDER_ENDDATE)`. -/

structure HRec where
  code : Nat
  annDt : Nat
  endDt : Nat
  value : Int
  deriving DecidableEq, Repr

/-- The record walk shared by `HolderNumber.rewrite_data` and
`HolderNumber.update_data` (lines 92-114 and 141-163): iterate with a
previous record; on a code change flush the accumulated per-date dict into
the outer dict; on two consecutive records sharing the announcement date
skip the earlier one; otherwise store the earlier record's value at its
announcement date.  After the loop the pending record is stored and the last
code flushed. -/
def holderWalk : HRec → List HRec → List (Nat × Int) → List (Nat × List (Nat × Int)) →
    List (Nat × List (Nat × Int))
  | pre, [], stock, main =>
    dinsert main pre.code (dinsert stock pre.annDt pre.value)
  | pre, r :: rs, stock, main =>
    if pre.code ≠ r.code then
      holderWalk r rs [] (dinsert main pre.code (dinsert stock pre.annDt pre.value))
    else if pre.annDt = r.annDt then
      holderWalk r rs stock main
    else
      holderWalk r rs (dinsert stock pre.annDt pre.value) main

/-- `sorted(list(set(self.index) | set(data.ANN_DT)))`: the calendar joined
with every announcement date present in the fetched records. -/
def indexRange (index : List Nat) (recs : List HRec) : List Nat :=
  sortedDedup (index ++ recs.map (·.annDt))

/-- The outer dict produced by the walk on a fetched record list (the source
crashes with `StopIteration` on an empty fetch, hence `Option`). -/
def holderDict (recs : List HRec) : Option (List (Nat × List (Nat × Int))) :=
  match recs with
  | [] => none
  | p :: rs => some (holderWalk p rs [] [])

/-- `HolderNumber.rewrite_data` (lines 88-119) after the fetch: walk the
sorted records, build a DataFrame over the calendar-and-announcement-date
index, forward-fill it, and reindex to the calendar rows and universe
columns. -/
def holderRewrite (index : List Nat) (column : List Nat) (recs : List HRec) :
    Option (Frame Int) :=
  (holderDict recs).bind (fun hn =>
    ((frameOfDictI hn (indexRange index recs)).ffill).reindexRC index column)

/-- `HolderNumber.update_data` (lines 121-168): compute the missing calendar
dates; if none, stop without fetching or writing; otherwise walk the newly
fetched records exactly as in the full build, append the resulting frame to
the persisted panel and reindex to the calendar and universe.  `recs` is
what `read_data(new_date[0])` returned, already sorted. -/
def holderUpdate (index : List Nat) (column : List Nat) (localF : Frame Int)
    (recs : List HRec) : UpdResult Int :=
  if newDates index localF.rowLabels = [] then .noop
  else
    match holderDict recs with
    | none => .err
    | some hn =>
      match (localF.happend ((frameOfDictI hn (indexRange index recs)).ffill)).reindexRC
          index column with
      | none => .err
      | some f => .wrote f

/-! ## FloatVolume (`float_volume.py`)

A record of `wind.ASHARECAPITALIZATION`: security code, change date and
tradable share count.  Both walks thread a manual iterator over the calendar;
an iterator is modelled as the remaining suffix of the list it iterates. -/

structure FRec where
  code : Nat
  dt : Nat
  value : Int
  deriving DecidableEq, Repr

/-- `self.index[self.index.index(d):]`: the calendar suffix starting at the
first occurrence of `d`. -/
def dropFrom (index : List Nat) (d : Nat) : List Nat :=
  index.drop (index.findIdx (fun x => x = d))

/-- The fill-the-rest loop of the float walk (`for index in index_iter:
stock_dict[index] = value`): every remaining iterator position receives the
given value, with no guard against positions before the record's date. -/
def fillRest (rem : List Nat) (v : Int) (stock : List (Nat × Int)) : List (Nat × Int) :=
  rem.foldl (fun s d => dinsert s d v) stock

/-- The same-code loop of the float walk (`float_volume.py` lines 152-162 and
222-232): skip iterator positions before the earlier record's date, fill
positions in `[date_1, date_2)` with the earlier value and the position equal
to `date_2` with the later value, and on the first position past `date_2`
reset the iterator to the full-calendar suffix starting there (inclusive) and
stop.  Returns the updated dict and the remaining iterator. -/
def fillSame (index : List Nat) : List Nat → Nat → Nat → Int → Int →
    List (Nat × Int) → List (Nat × Int) × List Nat
  | [], _, _, _, _, stock => (stock, [])
  | d :: rem, d1, d2, v1, v2, stock =>
    if d < d1 then fillSame index rem d1 d2 v1 v2 stock
    else if d < d2 then fillSame index rem d1 d2 v1 v2 (dinsert stock d v1)
    else if d = d2 then fillSame index rem d1 d2 v1 v2 (dinsert stock d v2)
    else (stock, dropFrom index d)

/-- The record walk shared by `FloatVolume.rewrite_data` and
`FloatVolume.update_data` (lines 127-169 and 204-240): on a code change,
fill every remaining iterator position with the pending record's value, flush
the per-date dict, and restart the iterator over the full calendar; on the
same code run the interval fill.  After the loop the remaining iterator is
filled with the pending record's value and the last code flushed. -/
def floatWalk (index : List Nat) : FRec → List FRec → List Nat → List (Nat × Int) →
    List (Nat × List (Nat × Int)) → List (Nat × List (Nat × Int))
  | pre, [], rem, stock, main =>
    dinsert main pre.code (fillRest rem pre.value stock)
  | pre, r :: rs, rem, stock, main =>
    if pre.code ≠ r.code then
      floatWalk index r rs index [] (dinsert main pre.code (fillRest rem pre.value stock))
    else
      let sr := fillSame index rem pre.dt r.dt pre.value r.value stock
      floatWalk index r rs sr.2 sr.1 main

/-- `FloatVolume.rewrite_data` (lines 100-176) after the fetch: walk the
sorted records with the iterator starting on the full calendar, then build
`pd.DataFrame(main_dict, columns=self.column)` (row labels are the union of
the per-code dict keys; rows are not reindexed to the calendar). -/
def floatRewrite (index : List Nat) (column : List Nat) (recs : List FRec) :
    Option (Frame Int) :=
  match recs with
  | [] => none
  | p :: rs => some (frameOfDictC (floatWalk index p rs index [] []) column)

/-- The delta frame of `FloatVolume.update_data` (lines 197-241): the walk of
the newly fetched records with the iterator starting on `new_date` only
(resets inside the walk still use the full calendar, as in the source). -/
def floatDelta (index : List Nat) (nd : List Nat) (column : List Nat)
    (recs : List FRec) : Option (Frame Int) :=
  match recs with
  | [] => none
  | p :: rs => some (frameOfDictC (floatWalk index p rs nd [] []) column)

/-- `FloatVolume.update_data` (lines 178-247): compute the missing calendar
dates; if none, stop; otherwise append the delta frame to the persisted
panel (no row reindex afterwards). -/
def floatUpdate (index : List Nat) (column : List Nat) (localF : Frame Int)
    (recs : List FRec) : UpdResult Int :=
  if newDates index localF.rowLabels = [] then .noop
  else
    match floatDelta index (newDates index localF.rowLabels) column recs with
    | none => .err
    | some df => .wrote (localF.happend df)

/-! ## EodDerivativeIndicator (`a_share_eod_derivative_indicator.py`)

A fetched row carries the security code, the trade date and one value per
factor column of `target_column`; `vals` is the row restricted to the factor
columns. -/

structure ERec where
  code : Nat
  dt : Nat
  vals : Nat → Option Int

/-- pandas `max` over a group column: skip missing values, `NaN` only when
every value of the group is missing. -/
def omax : Option Int → Option Int → Option Int
  | none, b => b
  | some a, none => some a
  | some a, some b => some (max a b)

/-- The reduced value of the `(TRADE_DT, S_INFO_WINDCODE)` group at `(d, e)`
for one factor column, after `groupby([TRADE_DT, S_INFO_WINDCODE]).max()`:
the maximum of the group's present values, missing when the group is empty
or all-missing. -/
def groupMax (recs : List ERec) (fac : Nat) (d : Nat) (e : Nat) : Option Int :=
  ((recs.filter (fun r => r.dt == d && r.code == e)).map (fun r => r.vals fac)).foldl omax none

/-- `groupby([TRADE_DT, S_INFO_WINDCODE]).max().unstack()` restricted to one
factor column: rows are the distinct trade dates present in the data,
ascending; columns the distinct codes, ascending. -/
def eodUnstack (recs : List ERec) (fac : Nat) : Frame Int :=
  { rowLabels := sortedDedup (recs.map (·.dt))
    colLabels := sortedDedup (recs.map (·.code))
    entry := fun i e => ((sortedDedup (recs.map (·.dt))).get? i).bind (fun d => groupMax recs fac d e) }

/-- One factor table of `EodDerivativeIndicator.rewrite_data` (lines 123-136):
`unstack_data[factor].reindex(columns=self.column)`.  The rows are whatever
trade dates the fetched data contains; they are never reindexed to the
calendar. -/
def eodRewriteFactor (column : List Nat) (recs : List ERec) (fac : Nat) : Frame Int :=
  (eodUnstack recs fac).reindexCols column

/-- `EodDerivativeIndicator.rewrite_data` over the whole factor list: one
panel per factor name. -/
def eodRewriteStore (targetCols : List Nat) (column : List Nat) (recs : List ERec) :
    List (Nat × Frame Int) :=
  targetCols.map (fun fac => (fac, eodRewriteFactor column recs fac))

/-- `EodDerivativeIndicator.update_data` (lines 138-164): read the persisted
`S_VAL_MV` panel (the designated factor, `svmv`); if every calendar date is
already a row, stop without fetching or writing; otherwise, for each factor,
append that factor's unstacked delta to its persisted panel and reindex the
columns.  `none` models the uncaught read error when a needed panel file is
absent.  The `Bool` records whether anything was written. -/
def eodUpdateStore (index : List Nat) (column : List Nat) (targetCols : List Nat)
    (svmv : Nat) (store : List (Nat × Frame Int)) (fetch : List ERec) :
    Option (List (Nat × Frame Int) × Bool) :=
  (alookup store svmv).bind (fun desig =>
    if newDates index desig.rowLabels = [] then some (store, false)
    else
      (targetCols.mapM (fun fac =>
        (alookup store fac).map (fun ex =>
          (fac, (ex.happend (eodUnstack fetch fac)).reindexCols column)))).map
        (fun l => (l, true)))

/-! ## L2Indicators (`a_share_l2indicators.py`)

The job is structurally the copy of the EOD job with its own factor list and
`S_LI_ENTRUSTRATE` as the designated factor; the source file duplicates the
EOD logic line for line, so the embedding does too. -/

/-- One factor table of `L2Indicators.rewrite_data` (lines 102-115). -/
def l2RewriteFactor (column : List Nat) (recs : List ERec) (fac : Nat) : Frame Int :=
  (eodUnstack recs fac).reindexCols column

/-- `L2Indicators.update_data` (lines 117-143), with `entr` the designated
`S_LI_ENTRUSTRATE` factor name. -/
def l2UpdateStore (index : List Nat) (column : List Nat) (targetCols : List Nat)
    (entr : Nat) (store : List (Nat × Frame Int)) (fetch : List ERec) :
    Option (List (Nat × Frame Int) × Bool) :=
  (alookup store entr).bind (fun desig =>
    if newDates index desig.rowLabels = [] then some (store, false)
    else
      (targetCols.mapM (fun fac =>
        (alookup store fac).map (fun ex =>
          (fac, (ex.happend (eodUnstack fetch fac)).reindexCols column)))).map
        (fun l => (l, true)))

/-! ## AnnFinancialIndicator (`a_share_ann_financial_indicator.py`)

Values are anchored per report year: a record's value is written at
`self.index[bisect(self.index, year + '0101')]`.  A missing reported value is
written as the string sentinel `'NA'` so that the forward-fill pass carries
it instead of refilling from an earlier value; after the pass the sentinel is
converted back to a true missing value (`df.replace('NA', np.nan)`).

The factor columns of a fetched row are processed by one loop iteration each,
with fully independent per-factor dicts; `ARec` is the projection of a row to
one factor column, and the walk below is the loop body for that factor.  The
multi-factor store operations recover the source's behaviour by applying the
walk to every factor projection. -/

/-- Intermediate cell of the financial-indicator build: a real value, or the
`'NA'` sentinel standing for an explicitly reported missing value. -/
inductive ACell where
  | na : ACell
  | val (v : Int) : ACell
  deriving DecidableEq, Repr

/-- Lines 138-140: a missing reported value becomes the `'NA'` sentinel. -/
def acell : Option Int → ACell
  | none => .na
  | some v => .val v

/-- `df.replace('NA', np.nan)`: the sentinel becomes a true missing value. -/
def desent : ACell → Option Int
  | .na => none
  | .val v => some v

/-- Apply `replace('NA', np.nan)` to every cell of a frame. -/
def Frame.replaceNA (f : Frame ACell) : Frame Int :=
  { rowLabels := f.rowLabels
    colLabels := f.colLabels
    entry := fun i e => (f.entry i e).bind desent }

/-- A record of `wind.ASHAREANNFINANCIALINDICATOR` restricted to one factor
column: security code, report year, report season and the factor value
(missing when the reported value is null). -/
structure ARec where
  code : Nat
  year : Nat
  season : Nat
  value : Option Int
  deriving DecidableEq, Repr

/-- `'{}0101'.format(year)`: the first calendar day of the report year. -/
def y0101 (year : Nat) : Nat :=
  year * 10000 + 101

/-- `bisect.bisect(l, key)` on an ascending list: the insertion point to the
right of every element equal to `key`, i.e. the count of elements `≤ key`. -/
def bisectR (l : List Nat) (key : Nat) : Nat :=
  l.countP (fun x => x ≤ key)

/-- `self.index[bisect(self.index, '{year}0101')]` (lines 135, 152, 200, 217):
the calendar date at the insertion point, i.e. the first calendar date
strictly greater than January 1 of the report year; `none` models the
uncaught `IndexError` when no such date exists. -/
def anchorDate (index : List Nat) (year : Nat) : Option Nat :=
  index.get? (bisectR index (y0101 year))

/-- The record walk shared by `AnnFinancialIndicator.rewrite_data` and
`update_data` (lines 127-159 and 192-224), for one factor column: every
iteration writes the pending record's (sentinel-encoded) value at its anchor
date into the per-code dict, and a code change flushes that dict into the
outer dict under the key `(season of the flushed record, code)`. -/
def annWalk (index : List Nat) : ARec → List ARec → List (Nat × ACell) →
    List ((Nat × Nat) × List (Nat × ACell)) →
    Option (List ((Nat × Nat) × List (Nat × ACell)))
  | pre, [], stock, main =>
    (anchorDate index pre.year).map (fun d =>
      dinsert main (pre.season, pre.code) (dinsert stock d (acell pre.value)))
  | pre, r :: rs, stock, main =>
    (anchorDate index pre.year).bind (fun d =>
      if pre.code ≠ r.code then
        annWalk index r rs [] (dinsert main (pre.season, pre.code) (dinsert stock d (acell pre.value)))
      else
        annWalk index r rs (dinsert stock d (acell pre.value)) main)

/-- `financial_indicator.SEASON.unique()`: the distinct seasons in first
appearance order. -/
def uniqueSeasons (recs : List ARec) : List Nat :=
  (recs.map (·.season)).dedup

/-- `main_dict[s]` for one factor: the per-code dicts flushed under season
`s`, in insertion order. -/
def annSeasonDict (main : List ((Nat × Nat) × List (Nat × ACell))) (s : Nat) :
    List (Nat × List (Nat × ACell)) :=
  main.filterMap (fun p => if p.1.1 = s then some (p.1.2, p.2) else none)

/-- The season-`s` panel built by `AnnFinancialIndicator.rewrite_data` (line
163-164) for one factor: `pd.DataFrame(main_dict[s][factor],
index=self.index, columns=self.column).fillna(method='ffill')` followed by
the sentinel replacement. -/
def annSeasonPanel (index : List Nat) (column : List Nat) (recs : List ARec) (s : Nat) :
    Option (Frame Int) :=
  match recs with
  | [] => none
  | p :: rs =>
    (annWalk index p rs [] []).map (fun main =>
      ((frameOfDictIC (annSeasonDict main s) index column).ffill).replaceNA)

/-- `AnnFinancialIndicator.rewrite_data` (lines 117-168) for one factor: one
panel per distinct season; the panel at list position `i` is persisted under
file suffix `i + 1`. -/
def annRewrite (index : List Nat) (column : List Nat) (recs : List ARec) :
    Option (List (Nat × Frame Int)) :=
  (uniqueSeasons recs).mapM (fun s =>
    (annSeasonPanel index column recs s).map (fun f => (s, f)))

/-- The delta frame of `AnnFinancialIndicator.update_data` (lines 229-230)
for one factor and one season: built over exactly `new_date`, forward-filled
and desentinelled.  The fetch has no seeding query, so entities without a
new record give all-missing columns. -/
def annUpdateDelta (index : List Nat) (nd : List Nat) (column : List Nat)
    (recs : List ARec) (s : Nat) : Option (Frame Int) :=
  match recs with
  | [] => none
  | p :: rs =>
    (annWalk index p rs [] []).map (fun main =>
      ((frameOfDictIC (annSeasonDict main s) nd column).ffill).replaceNA)

/-- A full fetched row of the financial-indicator source: one value per
factor column. -/
structure AERec where
  code : Nat
  year : Nat
  season : Nat
  vals : Nat → Option Int

/-- Restrict fetched rows to one factor column. -/
def annProject (recs : List AERec) (fac : Nat) : List ARec :=
  recs.map (fun r => ⟨r.code, r.year, r.season, r.vals fac⟩)

/-- Seasons of the full fetch, in first appearance order. -/
def uniqueSeasonsE (recs : List AERec) : List Nat :=
  (recs.map (·.season)).dedup

/-- `AnnFinancialIndicator.update_data` (lines 170-235): read the persisted
season-1 panel of the designated factor `eps` (`S_FA_EPS_DILUTED`); if every
calendar date is already a row, stop without fetching or writing; otherwise,
for the `i`-th distinct season of the fetch and each factor, append that
factor's delta frame to the panel persisted under file suffix `i + 1`.
`none` models an uncaught error (empty fetch or missing panel file). -/
def annUpdateStore (index : List Nat) (column : List Nat) (targetCols : List Nat)
    (eps : Nat) (store : List ((Nat × Nat) × Frame Int)) (fetch : List AERec) :
    Option (List ((Nat × Nat) × Frame Int) × Bool) :=
  (alookup store (eps, 1)).bind (fun desig =>
    if newDates index desig.rowLabels = [] then some (store, false)
    else
      (((uniqueSeasonsE fetch).enum.mapM (fun is =>
        targetCols.mapM (fun fac =>
          (annUpdateDelta index (newDates index desig.rowLabels) column
              (annProject fetch fac) is.2).bind (fun df =>
            (alookup store (fac, is.1 + 1)).map (fun ex =>
              ((fac, is.1 + 1), ex.happend df)))))).map
        (fun l => (l.flatten, true))))

/-- The forward-filled value visible at date `d` in a per-code date dict: the
value of the last entry whose key is at most `d`. -/
def locfLookup {α : Type} (dct : List (Nat × α)) (d : Nat) : Option α :=
  ((dct.filter (fun p => p.1 ≤ d)).getLast?).map (·.2)

/-- The order `sort_values([S_INFO_WINDCODE, ANN_DT, S_HOLDER_ENDDATE])`
establishes before the walk: codes ascending, announcement dates ascending
within a code (the end-date tiebreak does not matter to the walk). -/
def hord (a b : HRec) : Prop :=
  a.code < b.code ∨ (a.code = b.code ∧ a.annDt ≤ b.annDt)

instance : DecidableRel hord := fun a b => by
  unfold hord
  infer_instance

/-- The cell the walked outer dict yields for code `c` and date `d`. -/
def walkLookup (m : List (Nat × List (Nat × Int))) (c : Nat) (d : Nat) : Option Int :=
  (alookup m c).bind (fun dct => alookup dct d)

/-- The value of the last record in stream order carrying the given code and
announcement date. -/
def lastWith (recs : List HRec) (c : Nat) (d : Nat) : Option Int :=
  ((recs.filter (fun r => r.code == c && r.annDt == d)).getLast?).map (·.value)

/-- The order `sort_values([SEASON, S_INFO_WINDCODE, YEAR])` establishes
within one season before the financial-indicator walk: codes ascending,
report years ascending within a code. -/
def aord (a b : ARec) : Prop :=
  a.code < b.code ∨ (a.code = b.code ∧ a.year ≤ b.year)

instance : DecidableRel aord := fun a b => by
  unfold aord
  infer_instance

/-- Whether a record's anchor date exists and is at most `d`. -/
def anchorLE (index : List Nat) (r : ARec) (d : Nat) : Bool :=
  match anchorDate index r.year with
  | some a => a ≤ d
  | none => false

/-- The per-code dict the financial-indicator walk accumulates over a run of
records: each record writes its sentinel-encoded value at its anchor date. -/
def annFold (index : List Nat) (stock : List (Nat × ACell)) (l : List ARec) :
    Option (List (Nat × ACell)) :=
  l.foldlM (fun dct r => (anchorDate index r.year).map (fun a => dinsert dct a (acell r.value))) stock

/-- What the holder-number walk records for code `c` at date `d`. -/
def holderLookup (recs : List HRec) (c : Nat) (d : Nat) : Option Int :=
  (holderDict recs).bind (fun m => walkLookup m c d)

/-! ## Concrete example states

Small persisted panels and stores used to run the operations on closed
inputs: a one-row holder panel, a one-row float panel, a financial-indicator
store whose persisted panel ends at date 102 with a known value for entity 1,
a fully up-to-date panel next to one missing a calendar date, and a
single-panel store for the no-op runs. -/

def exAnnPrev : Frame Int :=
  { rowLabels := [102]
    colLabels := [1, 2]
    entry := fun i e => if i = 0 ∧ e = 1 then some 7 else none }

def exAnnStore : List ((Nat × Nat) × Frame Int) :=
  [((0, 1), exAnnPrev)]

def exHolderLocal : Frame Int :=
  { rowLabels := [1]
    colLabels := [5]
    entry := fun i e => if i = 0 ∧ e = 5 then some 3 else none }

def exFloatLocal : Frame Int :=
  { rowLabels := [1]
    colLabels := [5, 6]
    entry := fun i _ => if i = 0 then some 1 else none }

def exNoopLocal : Frame Int :=
  { rowLabels := [1]
    colLabels := [5]
    entry := fun i e => if i = 0 ∧ e = 5 then some 2 else none }

def exNoopStore : List (Nat × Frame Int) :=
  [(0, exNoopLocal)]

def exCoveredPanel : Frame Int :=
  { rowLabels := [1, 2]
    colLabels := [9]
    entry := fun _ _ => some 0 }

def exGapPanel : Frame Int :=
  { rowLabels := [1]
    colLabels := [9]
    entry := fun _ _ => some 0 }

def exEodStore : List (Nat × Frame Int) :=
  [(0, exCoveredPanel), (1, exGapPanel)]

def exAnnStore2 : List ((Nat × Nat) × Frame Int) :=
  [((0, 1), exCoveredPanel), ((1, 1), exGapPanel)]

/-! ## Basic lemmas about the dict and sorted-list primitives -/

theorem alookup_nil {κ α : Type} [DecidableEq κ] (k : κ) : alookup ([] : List (κ × α)) k = none := rfl

theorem alookup_cons {κ α : Type} [DecidableEq κ] (p : κ × α) (m : List (κ × α)) (k : κ) :
    alookup (p :: m) k = if p.1 = k then some p.2 else alookup m k := by
  simp only [alookup, List.find?]
  by_cases h : p.1 = k <;> simp [h]

theorem alookup_dinsert {κ α : Type} [DecidableEq κ] (m : List (κ × α)) (k : κ) (v : α) (c : κ) :
    alookup (dinsert m k v) c = if c = k then some v else alookup m c := by
  induction m with
  | nil =>
    by_cases h : c = k
    · subst h; simp [dinsert, alookup_cons]
    · simp [dinsert, alookup_cons, alookup_nil, h, Ne.symm h]
  | cons p ps ih =>
    by_cases hpk : p.1 = k
    · rw [dinsert, if_pos hpk]
      by_cases hck : c = k
      · subst hck; simp [alookup_cons]
      · rw [alookup_cons, alookup_cons, if_neg (fun h' : (k, v).1 = c => hck h'.symm),
          if_neg (fun h' : p.1 = c => hck (h'.symm.trans hpk)), if_neg hck]
    · rw [dinsert, if_neg hpk]
      by_cases hpc : p.1 = c
      · have hck : ¬ c = k := fun h => hpk (hpc.trans h)
        rw [alookup_cons, if_pos hpc, alookup_cons, if_pos hpc, if_neg hck]
      · rw [alookup_cons, if_neg hpc, ih, alookup_cons, if_neg hpc]

theorem alookup_eq_none {κ α : Type} [DecidableEq κ] (m : List (κ × α)) (c : κ)
    (h : ∀ p ∈ m, p.1 ≠ c) : alookup m c = none := by
  induction m with
  | nil => rfl
  | cons p ps ih =>
    rw [alookup_cons]
    simp only [h p (List.mem_cons_self p ps), if_false]
    exact ih (fun q hq => h q (List.mem_cons_of_mem p hq))

theorem alookup_isSome_of_mem {κ α : Type} [DecidableEq κ] {m : List (κ × α)} {p : κ × α}
    (h : p ∈ m) : (alookup m p.1).isSome := by
  induction m with
  | nil => cases h
  | cons q qs ih =>
    rw [alookup_cons]
    rcases List.mem_cons.1 h with h' | h'
    · subst h'; simp
    · by_cases hq : q.1 = p.1 <;> simp [hq, ih h']

theorem mem_keys_dinsert {κ α : Type} [DecidableEq κ] {m : List (κ × α)} {k x : κ} {v : α}
    (h : x ∈ (dinsert m k v).map (·.1)) : x = k ∨ x ∈ m.map (·.1) := by
  induction m with
  | nil =>
    rw [dinsert] at h
    simp only [List.map_cons, List.map_nil, List.mem_singleton] at h
    exact Or.inl h
  | cons p ps ih =>
    by_cases hpk : p.1 = k
    · rw [dinsert, if_pos hpk] at h
      simp only [List.map_cons, List.mem_cons] at h ⊢
      tauto
    · rw [dinsert, if_neg hpk] at h
      simp only [List.map_cons, List.mem_cons] at h ⊢
      rcases h with h | h
      · tauto
      · rcases ih h with h | h
        · tauto
        · tauto

theorem keys_dinsert_nodup {κ α : Type} [DecidableEq κ] {m : List (κ × α)} (k : κ) (v : α)
    (h : (m.map (·.1)).Nodup) : ((dinsert m k v).map (·.1)).Nodup := by
  induction m with
  | nil => simp [dinsert]
  | cons p ps ih =>
    simp only [List.map_cons, List.nodup_cons] at h
    by_cases hpk : p.1 = k
    · rw [dinsert, if_pos hpk]
      simp only [List.map_cons, List.nodup_cons]
      exact ⟨hpk ▸ h.1, h.2⟩
    · rw [dinsert, if_neg hpk]
      simp only [List.map_cons, List.nodup_cons]
      refine ⟨fun hmem => ?_, ih h.2⟩
      rcases mem_keys_dinsert hmem with h' | h'
      · exact hpk h'
      · exact h.1 h'

theorem mem_sinsert (k a : Nat) (l : List Nat) : a ∈ sinsert k l ↔ a = k ∨ a ∈ l := by
  induction l with
  | nil => simp [sinsert]
  | cons x xs ih =>
    by_cases h1 : k < x
    · rw [sinsert, if_pos h1]
      simp only [List.mem_cons]
    · by_cases h2 : k = x
      · rw [sinsert, if_neg h1, if_pos h2]
        subst h2
        simp only [List.mem_cons]
        tauto
      · rw [sinsert, if_neg h1, if_neg h2]
        simp only [List.mem_cons, ih]
        tauto

theorem sorted_sinsert (k : Nat) (l : List Nat) (h : l.Sorted (· < ·)) :
    (sinsert k l).Sorted (· < ·) := by
  induction l with
  | nil => simp [sinsert, List.sorted_singleton]
  | cons x xs ih =>
    rw [List.sorted_cons] at h
    by_cases h1 : k < x
    · rw [sinsert, if_pos h1, List.sorted_cons]
      refine ⟨fun b hb => ?_, List.sorted_cons.2 h⟩
      rcases List.mem_cons.1 hb with h' | h'
      · omega
      · have := h.1 b h'; omega
    · by_cases h2 : k = x
      · rw [sinsert, if_neg h1, if_pos h2, List.sorted_cons]
        exact h
      · rw [sinsert, if_neg h1, if_neg h2, List.sorted_cons]
        refine ⟨fun b hb => ?_, ih h.2⟩
        rcases (mem_sinsert k b xs).1 hb with h' | h'
        · omega
        · exact h.1 b h'

theorem sortedDedup_sorted (l : List Nat) : (sortedDedup l).Sorted (· < ·) := by
  induction l with
  | nil => simp [sortedDedup]
  | cons x xs ih => exact sorted_sinsert x _ ih

theorem mem_sortedDedup (l : List Nat) (a : Nat) : a ∈ sortedDedup l ↔ a ∈ l := by
  induction l with
  | nil => simp [sortedDedup]
  | cons x xs ih =>
    show a ∈ sinsert x (sortedDedup xs) ↔ _
    rw [mem_sinsert, ih]
    simp

theorem sortedDedup_nodup (l : List Nat) : (sortedDedup l).Nodup :=
  (sortedDedup_sorted l).nodup

theorem ffillEntry_eq_none {α : Type} (c : Nat → Option α) (h : ∀ j, c j = none) :
    ∀ i, ffillEntry c i = none := by
  intro i
  induction i with
  | zero => simpa [ffillEntry] using h 0
  | succ n ih => simp [ffillEntry, h (n + 1), ih]

/-! ## Sorted-list, lookup and forward-fill lemmas -/

theorem sorted_get?_lt {l : List Nat} (h : l.Sorted (· < ·)) {i j a b : Nat}
    (hij : i < j) (ha : l.get? i = some a) (hb : l.get? j = some b) : a < b := by
  obtain ⟨hi, ha'⟩ := List.get?_eq_some.1 ha
  obtain ⟨hj, hb'⟩ := List.get?_eq_some.1 hb
  have := h.rel_get_of_lt (a := ⟨i, hi⟩) (b := ⟨j, hj⟩) hij
  rw [ha', hb'] at this
  exact this

theorem sorted_get?_le {l : List Nat} (h : l.Sorted (· < ·)) {i j a b : Nat}
    (hij : i ≤ j) (ha : l.get? i = some a) (hb : l.get? j = some b) : a ≤ b := by
  rcases Nat.lt_or_ge i j with h' | h'
  · exact le_of_lt (sorted_get?_lt h h' ha hb)
  · have hij' : i = j := by omega
    subst hij'
    rw [ha] at hb
    exact le_of_eq (Option.some.inj hb)

theorem mem_get? {α : Type} {l : List α} {x : α} (h : x ∈ l) : ∃ j, l.get? j = some x := by
  obtain ⟨n, hn⟩ := List.mem_iff_get.1 h
  exact ⟨n.1, by rw [List.get?_eq_get n.2, hn]⟩

theorem alookup_eq_of_mem_nodup {α : Type} {m : List (Nat × α)} {k : Nat} {v : α}
    (hnd : (m.map (·.1)).Nodup) (hmem : (k, v) ∈ m) : alookup m k = some v := by
  induction m with
  | nil => cases hmem
  | cons p ps ih =>
    simp only [List.map_cons, List.nodup_cons] at hnd
    rcases List.mem_cons.1 hmem with h | h
    · subst h
      rw [alookup_cons, if_pos rfl]
    · have hp : p.1 ≠ k := by
        intro he
        exact hnd.1 (he ▸ (List.mem_map.2 ⟨(k, v), h, rfl⟩))
      rw [alookup_cons, if_neg hp]
      exact ih hnd.2 h

theorem alookup_eq_none_of_not_mem_keys {α : Type} {m : List (Nat × α)} {k : Nat}
    (h : k ∉ m.map (·.1)) : alookup m k = none :=
  alookup_eq_none m k (fun p hp he => h (List.mem_map.2 ⟨p, hp, he⟩))


theorem locf_congr {α : Type} (dct : List (Nat × α)) (d d' : Nat)
    (h : ∀ p ∈ dct, (p.1 ≤ d' ↔ p.1 ≤ d)) : locfLookup dct d' = locfLookup dct d := by
  unfold locfLookup
  rw [List.filter_congr (fun p hp => decide_eq_decide.2 (h p hp))]

theorem locf_none {α : Type} (dct : List (Nat × α)) (d : Nat)
    (h : ∀ p ∈ dct, ¬ p.1 ≤ d) : locfLookup dct d = none := by
  unfold locfLookup
  rw [List.filter_eq_nil_iff.2 (fun p hp => by simpa using h p hp)]
  rfl

theorem locf_at_key {α : Type} {dct : List (Nat × α)} {d : Nat} {v : α}
    (hs : (dct.map (·.1)).Sorted (· < ·)) (hmem : (d, v) ∈ dct) : locfLookup dct d = some v := by
  induction dct with
  | nil => cases hmem
  | cons p ps ih =>
    simp only [List.map_cons, List.sorted_cons] at hs
    rcases List.mem_cons.1 hmem with h | h
    · subst h
      unfold locfLookup
      rw [List.filter_cons_of_pos (by simp)]
      rw [List.filter_eq_nil_iff.2 (fun q hq => by
        have hlt : d < q.1 := hs.1 q.1 (List.mem_map.2 ⟨q, hq, rfl⟩)
        simp
        exact hlt)]
      rfl
    · have hp : p.1 < d := hs.1 d (List.mem_map.2 ⟨(d, v), h, rfl⟩)
      have hrec := ih hs.2 h
      unfold locfLookup at hrec ⊢
      rw [List.filter_cons_of_pos (by simp; exact Nat.le_of_lt hp)]
      have hne : ps.filter (fun q => q.1 ≤ d) ≠ [] := by
        intro hnil
        rw [List.filter_eq_nil_iff] at hnil
        exact (hnil (d, v) h) (by simp)
      cases hfp : ps.filter (fun q => q.1 ≤ d) with
      | nil => exact absurd hfp hne
      | cons y ys =>
        rw [List.getLast?_cons_cons]
        rw [hfp] at hrec
        exact hrec

theorem ffill_locf {α : Type} (index : List Nat) (dct : List (Nat × α))
    (hidx : index.Sorted (· < ·))
    (hkeys : ∀ k ∈ dct.map (·.1), k ∈ index)
    (hks : (dct.map (·.1)).Sorted (· < ·)) :
    ∀ i d, index.get? i = some d →
      ffillEntry (fun j => (index.get? j).bind (fun d' => alookup dct d')) i = locfLookup dct d := by
  intro i
  induction i with
  | zero =>
    intro d hd
    show (index.get? 0).bind (fun d' => alookup dct d') = locfLookup dct d
    rw [hd]
    by_cases hmem : d ∈ dct.map (·.1)
    · obtain ⟨p, hp, hpd⟩ := List.mem_map.1 hmem
      obtain ⟨k, v⟩ := p
      simp only at hpd
      subst hpd
      rw [Option.some_bind, alookup_eq_of_mem_nodup hks.nodup hp, locf_at_key hks hp]
    · rw [Option.some_bind, alookup_eq_none_of_not_mem_keys hmem]
      rw [locf_none]
      intro p hp hle
      have hpi : p.1 ∈ index := hkeys p.1 (List.mem_map.2 ⟨p, hp, rfl⟩)
      obtain ⟨j, hj⟩ := mem_get? hpi
      have hge : d ≤ p.1 := sorted_get?_le hidx (Nat.zero_le j) hd hj
      have hne : p.1 ≠ d := fun he => hmem (he ▸ List.mem_map.2 ⟨p, hp, rfl⟩)
      exact hne (Nat.le_antisymm hle hge)
  | succ n ih =>
    intro d hd
    have hn : n < index.length := by
      have := (List.get?_eq_some.1 hd).1
      omega
    obtain ⟨dn, hdn⟩ : ∃ dn, index.get? n = some dn := by
      cases h : index.get? n with
      | none => rw [List.get?_eq_none] at h; omega
      | some x => exact ⟨x, rfl⟩
    show (match (index.get? (n + 1)).bind (fun d' => alookup dct d') with
      | some v => some v
      | none => ffillEntry (fun j => (index.get? j).bind (fun d' => alookup dct d')) n) = _
    rw [hd, Option.some_bind]
    by_cases hmem : d ∈ dct.map (·.1)
    · obtain ⟨p, hp, hpd⟩ := List.mem_map.1 hmem
      obtain ⟨k, v⟩ := p
      simp only at hpd
      subst hpd
      rw [alookup_eq_of_mem_nodup hks.nodup hp, locf_at_key hks hp]
    · rw [alookup_eq_none_of_not_mem_keys hmem]
      rw [ih dn hdn]
      refine locf_congr dct d dn (fun p hp => ⟨fun h1 => le_trans h1 ?_, fun h1 => ?_⟩)
      · exact le_of_lt (sorted_get?_lt hidx (Nat.lt_succ_self n) hdn hd)
      · -- p.1 ≤ dn given p.1 ≤ d and p.1 ≠ d
        have hpi : p.1 ∈ index := hkeys p.1 (List.mem_map.2 ⟨p, hp, rfl⟩)
        obtain ⟨j, hj⟩ := mem_get? hpi
        have hne : p.1 ≠ d := fun he => hmem (he ▸ List.mem_map.2 ⟨p, hp, rfl⟩)
        rcases Nat.lt_or_ge j (n + 1) with hj' | hj'
        · exact sorted_get?_le hidx (by omega) hj hdn
        · have hge : d ≤ p.1 := sorted_get?_le hidx hj' hd hj
          exact absurd (Nat.le_antisymm h1 hge) hne

/-! ## findIdx? and fold-max lemmas -/

theorem findIdx?_nodup_get? :
    ∀ (l : List Nat) (i n : Nat) (d : Nat), l.Nodup → l.get? i = some d →
      List.findIdx? (fun x => x = d) l n = some (n + i) := by
  intro l
  induction l with
  | nil => intro i n d _ h; simp at h
  | cons x xs ih =>
    intro i n d hnd hget
    cases i with
    | zero =>
      have hx : x = d := by simpa using hget
      rw [List.findIdx?_cons, if_pos (by simp [hx])]
      simp
    | succ j =>
      have hget' : xs.get? j = some d := by simpa using hget
      have hx : ¬ x = d := by
        intro h
        subst h
        exact (List.nodup_cons.1 hnd).1 (List.get?_mem hget')
      rw [List.findIdx?_cons, if_neg (by simp [hx]), ih j (n + 1) d (List.nodup_cons.1 hnd).2 hget']
      congr 1
      omega

theorem findIdx?_append_absent (l₁ l₂ : List Nat) (d : Nat) (h : ∀ x ∈ l₁, x ≠ d) :
    List.findIdx? (fun x => x = d) (l₁ ++ l₂) =
      (List.findIdx? (fun x => x = d) l₂).map (· + l₁.length) := by
  rw [List.findIdx?_append, List.findIdx?_eq_none_iff.2 (fun x hx => by simp [h x hx])]
  rfl

theorem foldl_omax_some_acc : ∀ (l : List (Option Int)) (a : Int), ∃ m, l.foldl omax (some a) = some m := by
  intro l
  induction l with
  | nil => intro a; exact ⟨a, rfl⟩
  | cons x xs ih =>
    intro a
    cases x with
    | none => exact ih a
    | some b => exact ih (max a b)

theorem foldl_omax_isSome : ∀ (l : List (Option Int)) (acc : Option Int) (v : Int),
    some v ∈ l → ∃ m, l.foldl omax acc = some m := by
  intro l
  induction l with
  | nil => intro acc v h; cases h
  | cons x xs ih =>
    intro acc v h
    rcases List.mem_cons.1 h with h' | h'
    · subst h'
      cases acc with
      | none => exact foldl_omax_some_acc xs v
      | some a => exact foldl_omax_some_acc xs (max a v)
    · exact ih (omax acc x) v h'

theorem foldl_omax_ub : ∀ (l : List (Option Int)) (acc : Option Int) (m : Int),
    l.foldl omax acc = some m →
      (∀ a, acc = some a → a ≤ m) ∧ ∀ w ∈ l.filterMap id, w ≤ m := by
  intro l
  induction l with
  | nil =>
    intro acc m h
    refine ⟨fun a ha => ?_, by simp⟩
    rw [ha] at h
    exact le_of_eq (Option.some.inj h)
  | cons x xs ih =>
    intro acc m h
    rw [List.foldl_cons] at h
    obtain ⟨h1, h2⟩ := ih (omax acc x) m h
    constructor
    · intro a ha
      subst ha
      cases x with
      | none => exact h1 a rfl
      | some b => exact le_trans (le_max_left a b) (h1 (max a b) rfl)
    · intro w hw
      cases x with
      | none => exact h2 w (by simpa using hw)
      | some b =>
        rcases List.mem_cons.1 (by simpa using hw : w ∈ b :: xs.filterMap id) with h' | h'
        · subst h'
          cases acc with
          | none => exact h1 w rfl
          | some a => exact le_trans (le_max_right a w) (h1 (max a w) rfl)
        · exact h2 w h'

theorem foldl_omax_mem : ∀ (l : List (Option Int)) (acc : Option Int) (m : Int),
    l.foldl omax acc = some m → acc = some m ∨ m ∈ l.filterMap id := by
  intro l
  induction l with
  | nil => intro acc m h; exact Or.inl h
  | cons x xs ih =>
    intro acc m h
    rw [List.foldl_cons] at h
    rcases ih (omax acc x) m h with h' | h'
    · cases acc with
      | none =>
        cases x with
        | none => exact absurd h' (by simp [omax])
        | some b =>
          refine Or.inr ?_
          have : b = m := Option.some.inj h'
          subst this
          simp
      | some a =>
        cases x with
        | none => exact Or.inl h'
        | some b =>
          have hm : max a b = m := Option.some.inj h'
          rcases max_choice a b with hc | hc
          · exact Or.inl (by rw [hc] at hm; rw [hm])
          · refine Or.inr ?_
            rw [hc] at hm
            subst hm
            simp
    · refine Or.inr ?_
      cases x with
      | none => simpa using h'
      | some b =>
        have hfm : (some b :: xs).filterMap id = b :: xs.filterMap id := by simp
        rw [hfm]
        exact List.mem_cons_of_mem _ h'

/-! ## Characterization of the HolderNumber walk -/


theorem lastWith_cons_of_neg (r : HRec) (recs : List HRec) (c : Nat) (d : Nat)
    (h : ¬ (r.code = c ∧ r.annDt = d)) : lastWith (r :: recs) c d = lastWith recs c d := by
  unfold lastWith
  rw [List.filter_cons_of_neg (by simpa [Bool.and_eq_true, beq_iff_eq] using h)]

theorem lastWith_none_of_no_code (recs : List HRec) (c d : Nat)
    (h : ∀ r ∈ recs, r.code ≠ c) : lastWith recs c d = none := by
  unfold lastWith
  rw [List.filter_eq_nil_iff.2 (fun r hr => by simp [h r hr])]
  rfl

theorem holderWalk_lookup :
    ∀ (rest : List HRec) (pre : HRec) (stock : List (Nat × Int))
      (main : List (Nat × List (Nat × Int))) (c : Nat) (d : Nat),
      List.Pairwise hord (pre :: rest) →
      (∀ k ∈ main.map (·.1), k < pre.code) →
      walkLookup (holderWalk pre rest stock main) c d =
        if c < pre.code then walkLookup main c d
        else if c = pre.code then
          (match lastWith (pre :: rest) c d with
           | some v => some v
           | none => alookup stock d)
        else lastWith (pre :: rest) c d := by
  intro rest
  induction rest with
  | nil =>
    intro pre stock main c d _ hmain
    show walkLookup (dinsert main pre.code (dinsert stock pre.annDt pre.value)) c d = _
    unfold walkLookup
    rw [alookup_dinsert]
    rcases Nat.lt_trichotomy c pre.code with hlt | heq | hgt
    · rw [if_neg (show ¬ c = pre.code by omega), if_pos hlt]
    · rw [if_pos heq, Option.some_bind, alookup_dinsert,
        if_neg (show ¬ c < pre.code by omega), if_pos heq]
      by_cases hd : d = pre.annDt
      · have hpm : lastWith [pre] c d = some pre.value := by
          unfold lastWith
          rw [List.filter_cons_of_pos (by simp [heq, hd]), List.filter_nil]
          rfl
        rw [if_pos hd, hpm]
      · have hpm : lastWith [pre] c d = none := by
          unfold lastWith
          rw [List.filter_cons_of_neg (by
            simp only [Bool.and_eq_true, beq_iff_eq]
            exact fun h => hd h.2.symm), List.filter_nil]
          rfl
        rw [if_neg hd, hpm]
    · rw [if_neg (show ¬ c = pre.code by omega), if_neg (show ¬ c < pre.code by omega),
        if_neg (show ¬ c = pre.code by omega)]
      rw [alookup_eq_none_of_not_mem_keys (fun hmem => by
        have := hmain c hmem
        omega)]
      rw [lastWith_none_of_no_code [pre] c d (fun r hr => by
        have h := List.mem_singleton.1 hr
        subst h
        omega)]
      rfl
  | cons r rs ih =>
    intro pre stock main c d hsort hmain
    have hpr : hord pre r := (List.pairwise_cons.1 hsort).1 r (List.mem_cons_self r rs)
    have hsort' : List.Pairwise hord (r :: rs) := (List.pairwise_cons.1 hsort).2
    have hrx : ∀ x ∈ rs, hord r x := (List.pairwise_cons.1 hsort').1
    by_cases hcode : pre.code = r.code
    · by_cases hdt : pre.annDt = r.annDt
      · -- consecutive records share code and announcement date: skip the earlier
        have hstep : holderWalk pre (r :: rs) stock main = holderWalk r rs stock main := by
          simp only [holderWalk]
          rw [if_neg (not_not_intro hcode), if_pos hdt]
        rw [hstep, ih r stock main c d hsort' (fun k hk => hcode ▸ hmain k hk)]
        have hlw : lastWith (pre :: r :: rs) c d = lastWith (r :: rs) c d := by
          by_cases hm : pre.code = c ∧ pre.annDt = d
          · unfold lastWith
            rw [List.filter_cons_of_pos (by simp [hm.1, hm.2]),
              List.filter_cons_of_pos (by simp [(hcode.symm.trans hm.1 : r.code = c),
                (hdt.symm.trans hm.2 : r.annDt = d)]),
              List.getLast?_cons_cons]
          · exact lastWith_cons_of_neg pre (r :: rs) c d hm
        rw [← hcode, hlw]
      · -- same code, strictly later announcement date: store the earlier value
        have hdlt : pre.annDt < r.annDt := by
          rcases hpr with h | h
          · omega
          · omega
        have hstep : holderWalk pre (r :: rs) stock main =
            holderWalk r rs (dinsert stock pre.annDt pre.value) main := by
          simp only [holderWalk]
          rw [if_neg (not_not_intro hcode), if_neg hdt]
        rw [hstep, ih r (dinsert stock pre.annDt pre.value) main c d hsort'
          (fun k hk => hcode ▸ hmain k hk), ← hcode]
        rcases Nat.lt_trichotomy c pre.code with hlt | heq | hgt
        · rw [if_pos hlt, if_pos hlt]
        · subst heq
          rw [if_neg (show ¬ pre.code < pre.code by omega), if_pos rfl,
            if_neg (show ¬ pre.code < pre.code by omega), if_pos rfl]
          by_cases hd : d = pre.annDt
          · have hfilt : (r :: rs).filter (fun x => x.code == pre.code && x.annDt == d) = [] := by
              rw [List.filter_eq_nil_iff]
              intro x hx
              simp only [Bool.and_eq_true, beq_iff_eq, not_and]
              intro hxc hxd
              rcases List.mem_cons.1 hx with h' | h'
              · subst h'
                omega
              · rcases hrx x h' with h'' | h''
                · omega
                · omega
            have hnomatch : lastWith (r :: rs) pre.code d = none := by
              unfold lastWith
              rw [hfilt]
              rfl
            have hpm : lastWith (pre :: r :: rs) pre.code d = some pre.value := by
              unfold lastWith
              rw [List.filter_cons_of_pos (by simp [hd]), hfilt]
              rfl
            rw [hnomatch, hpm]
            show alookup (dinsert stock pre.annDt pre.value) d = some pre.value
            rw [alookup_dinsert, if_pos hd]
          · rw [lastWith_cons_of_neg pre (r :: rs) pre.code d (fun hm => hd hm.2.symm)]
            cases hcase : lastWith (r :: rs) pre.code d with
            | some v => rfl
            | none =>
              show alookup (dinsert stock pre.annDt pre.value) d = alookup stock d
              rw [alookup_dinsert, if_neg hd]
        · rw [if_neg (show ¬ c < pre.code by omega), if_neg (show ¬ c = pre.code by omega),
            if_neg (show ¬ c < pre.code by omega), if_neg (show ¬ c = pre.code by omega),
            lastWith_cons_of_neg pre (r :: rs) c d (fun hm => absurd hm.1 (by omega))]
    · -- code change: flush the finished code block
      have hclt : pre.code < r.code := by
        rcases hpr with h | h
        · exact h
        · exact absurd h.1 hcode
      have hstep : holderWalk pre (r :: rs) stock main =
          holderWalk r rs [] (dinsert main pre.code (dinsert stock pre.annDt pre.value)) := by
        simp only [holderWalk]
        rw [if_pos hcode]
      have hmain' : ∀ k ∈ (dinsert main pre.code (dinsert stock pre.annDt pre.value)).map (·.1),
          k < r.code := by
        intro k hk
        rcases mem_keys_dinsert hk with h | h
        · subst h
          exact hclt
        · exact Nat.lt_trans (hmain k h) hclt
      have hno : ∀ x ∈ r :: rs, x.code ≠ pre.code := by
        intro x hx
        rcases List.mem_cons.1 hx with h' | h'
        · subst h'
          omega
        · rcases hrx x h' with h'' | h''
          · omega
          · omega
      rw [hstep, ih r [] (dinsert main pre.code (dinsert stock pre.annDt pre.value)) c d
        hsort' hmain']
      rcases Nat.lt_trichotomy c pre.code with hlt | heq | hgt
      · rw [if_pos (show c < r.code by omega), if_pos hlt]
        unfold walkLookup
        rw [alookup_dinsert, if_neg (show ¬ c = pre.code by omega)]
      · subst heq
        rw [if_pos hclt, if_neg (show ¬ pre.code < pre.code by omega), if_pos rfl]
        unfold walkLookup
        rw [alookup_dinsert, if_pos rfl, Option.some_bind, alookup_dinsert]
        by_cases hd : d = pre.annDt
        · have hpm : lastWith (pre :: r :: rs) pre.code d = some pre.value := by
            unfold lastWith
            rw [List.filter_cons_of_pos (by simp [hd]),
              List.filter_eq_nil_iff.2 (fun x hx => by simp [hno x hx])]
            rfl
          rw [hpm, if_pos hd]
        · have hpm : lastWith (pre :: r :: rs) pre.code d = none := by
            unfold lastWith
            rw [List.filter_cons_of_neg (by
              simp only [Bool.and_eq_true, beq_iff_eq]
              exact fun hm => hd hm.2.symm),
              List.filter_eq_nil_iff.2 (fun x hx => by simp [hno x hx])]
            rfl
          rw [hpm, if_neg hd]
      · rw [if_neg (show ¬ c < pre.code by omega), if_neg (show ¬ c = pre.code by omega),
          lastWith_cons_of_neg pre (r :: rs) c d (fun hm => absurd hm.1 (by omega))]
        rcases Nat.lt_trichotomy c r.code with hlt2 | heq2 | hgt2
        · rw [if_pos hlt2]
          unfold walkLookup
          rw [alookup_dinsert, if_neg (show ¬ c = pre.code by omega),
            alookup_eq_none_of_not_mem_keys (fun hmem => by
              have := hmain c hmem
              omega),
            lastWith_none_of_no_code (r :: rs) c d (fun x hx => by
              rcases List.mem_cons.1 hx with h' | h'
              · subst h'
                omega
              · rcases hrx x h' with h'' | h''
                · omega
                · omega)]
          rfl
        · subst heq2
          rw [if_neg (show ¬ r.code < r.code by omega), if_pos rfl]
          cases hcase : lastWith (r :: rs) r.code d with
          | some v => rfl
          | none => rfl
        · rw [if_neg (show ¬ c < r.code by omega), if_neg (show ¬ c = r.code by omega)]

/-! ## Anchor-date and financial-indicator fold lemmas -/

theorem anchorDate_mono {index : List Nat} (hidx : index.Sorted (· < ·)) {y y' a a' : Nat}
    (h : y ≤ y') (ha : anchorDate index y = some a) (ha' : anchorDate index y' = some a') :
    a ≤ a' := by
  unfold anchorDate bisectR at ha ha'
  refine sorted_get?_le hidx ?_ ha ha'
  refine List.countP_mono_left (fun x _ hx => ?_)
  simp only [decide_eq_true_eq] at hx ⊢
  unfold y0101 at hx ⊢
  omega

theorem filter_dinsert_gt {α : Type} (m : List (Nat × α)) (a : Nat) (v : α) (d : Nat)
    (h : ¬ a ≤ d) :
    (dinsert m a v).filter (fun p => p.1 ≤ d) = m.filter (fun p => p.1 ≤ d) := by
  induction m with
  | nil =>
    show List.filter _ [(a, v)] = _
    rw [List.filter_cons_of_neg (by simpa using h), List.filter_nil]
  | cons p ps ih =>
    by_cases hpa : p.1 = a
    · rw [dinsert, if_pos hpa, List.filter_cons_of_neg (by simpa using h),
        List.filter_cons_of_neg (by simp only [decide_eq_true_eq]; rw [hpa]; exact h)]
    · rw [dinsert, if_neg hpa]
      by_cases hpd : p.1 ≤ d
      · rw [List.filter_cons_of_pos (by simpa using hpd),
          List.filter_cons_of_pos (by simpa using hpd), ih]
      · rw [List.filter_cons_of_neg (by simpa using hpd),
          List.filter_cons_of_neg (by simpa using hpd), ih]

theorem locf_dinsert_gt {α : Type} (m : List (Nat × α)) (a : Nat) (v : α) (d : Nat)
    (h : ¬ a ≤ d) : locfLookup (dinsert m a v) d = locfLookup m d := by
  unfold locfLookup
  rw [filter_dinsert_gt m a v d h]

theorem keys_dinsert_sorted_top {α : Type} (m : List (Nat × α)) (a : Nat) (v : α)
    (hs : (m.map (·.1)).Sorted (· < ·)) (hb : ∀ k ∈ m.map (·.1), k ≤ a) :
    ((dinsert m a v).map (·.1)).Sorted (· < ·) ∧
      ∀ k ∈ (dinsert m a v).map (·.1), k ≤ a := by
  induction m with
  | nil => simp [dinsert]
  | cons p ps ih =>
    simp only [List.map_cons, List.sorted_cons] at hs
    have hpa : p.1 ≤ a := hb p.1 (by simp)
    by_cases hpe : p.1 = a
    · rw [dinsert, if_pos hpe]
      cases ps with
      | nil => simp
      | cons q qs =>
        have h1 : p.1 < q.1 := hs.1 q.1 (by simp)
        have h2 : q.1 ≤ a := hb q.1 (by simp)
        omega
    · rw [dinsert, if_neg hpe]
      have hps : ∀ k ∈ ps.map (·.1), k ≤ a := fun k hk => hb k (by simp [hk])
      obtain ⟨ihs, ihb⟩ := ih hs.2 hps
      refine ⟨?_, ?_⟩
      · simp only [List.map_cons, List.sorted_cons]
        refine ⟨fun b hb' => ?_, ihs⟩
        rcases mem_keys_dinsert hb' with h' | h'
        · omega
        · exact hs.1 b h'
      · intro k hk
        simp only [List.map_cons, List.mem_cons] at hk
        rcases hk with h' | h'
        · omega
        · exact ihb k h'

theorem locf_dinsert_top {α : Type} (m : List (Nat × α)) (a : Nat) (v : α) (d : Nat)
    (hs : (m.map (·.1)).Sorted (· < ·)) (hb : ∀ k ∈ m.map (·.1), k ≤ a) (had : a ≤ d) :
    locfLookup (dinsert m a v) d = some v := by
  induction m with
  | nil =>
    unfold locfLookup
    show (List.filter _ [(a, v)]).getLast?.map _ = _
    rw [List.filter_cons_of_pos (by simpa using had), List.filter_nil]
    rfl
  | cons p ps ih =>
    simp only [List.map_cons, List.sorted_cons] at hs
    have hpa : p.1 ≤ a := hb p.1 (by simp)
    by_cases hpe : p.1 = a
    · rw [dinsert, if_pos hpe]
      cases ps with
      | nil =>
        unfold locfLookup
        rw [List.filter_cons_of_pos (by simpa using had), List.filter_nil]
        rfl
      | cons q qs =>
        have h1 : p.1 < q.1 := hs.1 q.1 (by simp)
        have h2 : q.1 ≤ a := hb q.1 (by simp)
        omega
    · have hlt : p.1 < a := by omega
      rw [dinsert, if_neg hpe]
      have hps : ∀ k ∈ ps.map (·.1), k ≤ a := fun k hk => hb k (by simp [hk])
      have hrec := ih hs.2 hps
      unfold locfLookup at hrec ⊢
      rw [List.filter_cons_of_pos (by simp only [decide_eq_true_eq]; omega)]
      have hne : (dinsert ps a v).filter (fun q => q.1 ≤ d) ≠ [] := by
        intro hnil
        rw [hnil] at hrec
        exact absurd hrec (by simp)
      cases hfp : (dinsert ps a v).filter (fun q => q.1 ≤ d) with
      | nil => exact absurd hfp hne
      | cons y ys =>
        rw [List.getLast?_cons_cons]
        rw [hfp] at hrec
        exact hrec

theorem annFold_locf {index : List Nat} (hidx : index.Sorted (· < ·)) :
    ∀ (l : List ARec), List.Pairwise (fun a b : ARec => a.year ≤ b.year) l →
      ∀ dct, annFold index [] l = some dct →
        ((dct.map (·.1)).Sorted (· < ·) ∧
          (∀ k ∈ dct.map (·.1), ∃ r ∈ l, anchorDate index r.year = some k)) ∧
        ∀ d, locfLookup dct d =
          ((l.filter (fun r => anchorLE index r d)).getLast?).map (fun r => acell r.value) := by
  intro l
  induction l using List.reverseRecOn with
  | nil =>
    intro _ dct h
    have hd : dct = [] := by
      simpa [annFold] using h.symm
    subst hd
    refine ⟨⟨by simp, by simp⟩, fun d => ?_⟩
    simp [locfLookup]
  | append_singleton l r ihl =>
    intro hpair dct h
    have hpl : List.Pairwise (fun a b : ARec => a.year ≤ b.year) l :=
      (List.pairwise_append.1 hpair).1
    have hyr : ∀ x ∈ l, x.year ≤ r.year := fun x hx =>
      (List.pairwise_append.1 hpair).2.2 x hx r (by simp)
    unfold annFold at h
    rw [List.foldlM_append] at h
    cases hfl : List.foldlM (fun dct r =>
        (anchorDate index r.year).map (fun a => dinsert dct a (acell r.value))) [] l with
    | none =>
      rw [hfl] at h
      simp at h
    | some dl =>
      rw [hfl] at h
      have hfl' : annFold index [] l = some dl := hfl
      cases ha : anchorDate index r.year with
      | none =>
        simp only [Option.some_bind, List.foldlM_cons, List.foldlM_nil, ha] at h
        simp at h
      | some a =>
        simp only [Option.some_bind, List.foldlM_cons, List.foldlM_nil, ha] at h
        simp only [Option.map_some, Option.some_bind, pure] at h
        have hdct : dinsert dl a (acell r.value) = dct := by
          simpa using h
        subst hdct
        obtain ⟨⟨hsrt, horig⟩, hlocf⟩ := ihl hpl dl hfl'
        have hbound : ∀ k ∈ dl.map (·.1), k ≤ a := by
          intro k hk
          obtain ⟨x, hx, hax⟩ := horig k hk
          exact anchorDate_mono hidx (hyr x hx) hax ha
        obtain ⟨hsrt2, hb2⟩ := keys_dinsert_sorted_top dl a (acell r.value) hsrt hbound
        refine ⟨⟨hsrt2, ?_⟩, fun d => ?_⟩
        · intro k hk
          rcases mem_keys_dinsert hk with h1 | h1
          · exact ⟨r, by simp, h1 ▸ ha⟩
          · obtain ⟨x, hx, hax⟩ := horig k h1
            exact ⟨x, by simp [hx], hax⟩
        · by_cases had : a ≤ d
          · rw [locf_dinsert_top dl a (acell r.value) d hsrt hbound had]
            rw [List.filter_append, List.filter_cons_of_pos (by
              simp only [anchorLE, ha]
              simpa using had), List.filter_nil, List.getLast?_concat]
            rfl
          · rw [locf_dinsert_gt dl a (acell r.value) d had, hlocf d]
            rw [List.filter_append, List.filter_cons_of_neg (by
              simp only [anchorLE, ha]
              simpa using had), List.filter_nil, List.append_nil]

/-! ## Characterization of the financial-indicator walk -/

theorem annFold_cons (index : List Nat) (stock : List (Nat × ACell)) (r : ARec) (l : List ARec)
    (a : Nat) (ha : anchorDate index r.year = some a) :
    annFold index stock (r :: l) = annFold index (dinsert stock a (acell r.value)) l := by
  unfold annFold
  rw [List.foldlM_cons, ha]
  rfl

theorem annWalk_lookup {index : List Nat} {s : Nat} :
    ∀ (rest : List ARec) (pre : ARec) (stock : List (Nat × ACell))
      (main : List ((Nat × Nat) × List (Nat × ACell)))
      (out : List ((Nat × Nat) × List (Nat × ACell))) (c : Nat),
      List.Pairwise aord (pre :: rest) →
      (∀ x ∈ pre :: rest, x.season = s) →
      (∀ k ∈ main.map (·.1), k.2 < pre.code) →
      annWalk index pre rest stock main = some out →
      alookup out (s, c) =
        if c < pre.code then alookup main (s, c)
        else if c = pre.code then
          annFold index stock ((pre :: rest).filter (fun x => x.code == c))
        else if (pre :: rest).any (fun x => x.code == c) then
          annFold index [] ((pre :: rest).filter (fun x => x.code == c))
        else none := by
  intro rest
  induction rest with
  | nil =>
    intro pre stock main out c _ hseason hmain h
    have hps : pre.season = s := hseason pre (by simp)
    simp only [annWalk] at h
    cases ha : anchorDate index pre.year with
    | none => rw [ha] at h; cases h
    | some a =>
      rw [ha] at h
      have hout : out = dinsert main (pre.season, pre.code) (dinsert stock a (acell pre.value)) := by
        simpa using h.symm
      subst hout
      rw [alookup_dinsert]
      rcases Nat.lt_trichotomy c pre.code with hlt | heq | hgt
      · rw [if_neg (show ¬ ((s : Nat), c) = (pre.season, pre.code) from fun he => by
          have := congrArg Prod.snd he
          simp at this
          omega), if_pos hlt]
      · subst heq
        rw [if_pos (show ((s : Nat), pre.code) = (pre.season, pre.code) by rw [hps]),
          if_neg (show ¬ pre.code < pre.code by omega), if_pos rfl]
        have hfp : List.filter (fun x => x.code == pre.code) [pre] = [pre] := by
          rw [List.filter_cons_of_pos (by simp), List.filter_nil]
        rw [hfp, annFold_cons index stock pre [] a ha]
        rfl
      · rw [if_neg (show ¬ ((s : Nat), c) = (pre.season, pre.code) from fun he => by
          have := congrArg Prod.snd he
          simp at this
          omega), if_neg (show ¬ c < pre.code by omega),
          if_neg (show ¬ c = pre.code by omega)]
        rw [alookup_eq_none (m := main) (c := ((s : Nat), c)) (fun p hp he => by
          have h2 := hmain p.1 (List.mem_map.2 ⟨p, hp, rfl⟩)
          have := congrArg Prod.snd he
          simp at this
          omega)]
        rw [if_neg (show ¬ ([pre].any (fun x => x.code == c)) = true by
          simp only [List.any_cons, List.any_nil, Bool.or_false, beq_iff_eq]
          omega)]
  | cons r rs ih =>
    intro pre stock main out c hsort hseason hmain h
    have hpr : aord pre r := (List.pairwise_cons.1 hsort).1 r (List.mem_cons_self r rs)
    have hsort' : List.Pairwise aord (r :: rs) := (List.pairwise_cons.1 hsort).2
    have hrx : ∀ x ∈ rs, aord r x := (List.pairwise_cons.1 hsort').1
    have hps : pre.season = s := hseason pre (by simp)
    have hseason' : ∀ x ∈ r :: rs, x.season = s := fun x hx =>
      hseason x (List.mem_cons_of_mem pre hx)
    simp only [annWalk] at h
    cases ha : anchorDate index pre.year with
    | none => rw [ha] at h; cases h
    | some a =>
      rw [ha] at h
      simp only [Option.some_bind] at h
      by_cases hcode : pre.code = r.code
      · rw [if_neg (not_not_intro hcode)] at h
        rw [ih r (dinsert stock a (acell pre.value)) main out c hsort' hseason'
          (fun k hk => hcode ▸ hmain k hk) h, ← hcode]
        rcases Nat.lt_trichotomy c pre.code with hlt | heq | hgt
        · rw [if_pos hlt, if_pos hlt]
        · subst heq
          rw [if_neg (show ¬ pre.code < pre.code by omega), if_pos rfl,
            if_neg (show ¬ pre.code < pre.code by omega), if_pos rfl]
          have hfp : List.filter (fun x => x.code == pre.code) (pre :: r :: rs) =
              pre :: List.filter (fun x => x.code == pre.code) (r :: rs) :=
            List.filter_cons_of_pos (by simp)
          rw [hfp, annFold_cons index stock pre _ a ha]
        · rw [if_neg (show ¬ c < pre.code by omega), if_neg (show ¬ c = pre.code by omega),
            if_neg (show ¬ c < pre.code by omega), if_neg (show ¬ c = pre.code by omega)]
          have hfd : List.filter (fun x => x.code == c) (pre :: r :: rs) =
              List.filter (fun x => x.code == c) (r :: rs) :=
            List.filter_cons_of_neg (by
              simp only [beq_iff_eq, decide_eq_true_eq]
              omega)
          rw [hfd,
            show ((pre :: r :: rs).any (fun x => x.code == c)) =
              ((r :: rs).any (fun x => x.code == c)) from by
            rw [List.any_cons]
            have hf : (pre.code == c) = false := by
              simp only [beq_eq_false_iff_ne]
              omega
            rw [hf, Bool.false_or]]
      · have hclt : pre.code < r.code := by
          rcases hpr with h' | h'
          · exact h'
          · exact absurd h'.1 hcode
        rw [if_pos hcode] at h
        have hmain' : ∀ k ∈ (dinsert main (pre.season, pre.code)
            (dinsert stock a (acell pre.value))).map (·.1), k.2 < r.code := by
          intro k hk
          rcases mem_keys_dinsert hk with h' | h'
          · rw [h']
            exact hclt
          · exact Nat.lt_trans (hmain k h') hclt
        rw [ih r [] (dinsert main (pre.season, pre.code) (dinsert stock a (acell pre.value)))
          out c hsort' hseason' hmain' h]
        have hno : ∀ x ∈ r :: rs, pre.code < x.code := by
          intro x hx
          rcases List.mem_cons.1 hx with h' | h'
          · subst h'
            exact hclt
          · rcases hrx x h' with h'' | h''
            · omega
            · omega
        rcases Nat.lt_trichotomy c pre.code with hlt | heq | hgt
        · rw [if_pos (show c < r.code by omega), if_pos hlt, alookup_dinsert,
            if_neg (show ¬ ((s : Nat), c) = (pre.season, pre.code) from fun he => by
              have := congrArg Prod.snd he
              simp at this
              omega)]
        · subst heq
          rw [if_pos hclt, alookup_dinsert,
            if_pos (show ((s : Nat), pre.code) = (pre.season, pre.code) by rw [hps]),
            if_neg (show ¬ pre.code < pre.code by omega), if_pos rfl]
          have hfp : List.filter (fun x => x.code == pre.code) (pre :: r :: rs) =
              pre :: List.filter (fun x => x.code == pre.code) (r :: rs) :=
            List.filter_cons_of_pos (by simp)
          have hfn : List.filter (fun x => x.code == pre.code) (r :: rs) = [] := by
            rw [List.filter_eq_nil_iff]
            intro x hx
            have := hno x hx
            simp only [beq_iff_eq, decide_eq_true_eq]
            omega
          rw [hfp, hfn, annFold_cons index stock pre [] a ha]
          rfl
        · rw [if_neg (show ¬ c < pre.code by omega), if_neg (show ¬ c = pre.code by omega)]
          have hfd : List.filter (fun x => x.code == c) (pre :: r :: rs) =
              List.filter (fun x => x.code == c) (r :: rs) :=
            List.filter_cons_of_neg (by
              simp only [beq_iff_eq, decide_eq_true_eq]
              omega)
          rw [hfd,
            show ((pre :: r :: rs).any (fun x => x.code == c)) =
              ((r :: rs).any (fun x => x.code == c)) from by
            rw [List.any_cons]
            have hf : (pre.code == c) = false := by
              simp only [beq_eq_false_iff_ne]
              omega
            rw [hf, Bool.false_or]]
          rcases Nat.lt_trichotomy c r.code with hlt2 | heq2 | hgt2
          · rw [if_pos hlt2, alookup_dinsert,
              if_neg (show ¬ ((s : Nat), c) = (pre.season, pre.code) from fun he => by
                have := congrArg Prod.snd he
                simp at this
                omega),
              alookup_eq_none (m := main) (c := ((s : Nat), c)) (fun p hp he => by
                have h2 := hmain p.1 (List.mem_map.2 ⟨p, hp, rfl⟩)
                have := congrArg Prod.snd he
                simp at this
                omega)]
            rw [if_neg (show ¬ ((r :: rs).any (fun x => x.code == c)) = true by
              rw [List.any_eq_true]
              rintro ⟨x, hx, hxc⟩
              have hge : r.code ≤ x.code := by
                rcases List.mem_cons.1 hx with h1 | h1
                · subst h1
                  omega
                · rcases hrx x h1 with h2 | h2
                  · omega
                  · omega
              simp only [beq_iff_eq, decide_eq_true_eq] at hxc
              omega)]
          · subst heq2
            rw [if_neg (show ¬ r.code < r.code by omega), if_pos rfl,
              if_pos (show ((r :: rs).any (fun x => x.code == r.code)) = true by
                rw [List.any_cons]
                simp)]
          · rw [if_neg (show ¬ c < r.code by omega), if_neg (show ¬ c = r.code by omega)]

/-! ## Season dicts, walk keys, and frame-cell lemmas -/

theorem annSeasonDict_lookup (main : List ((Nat × Nat) × List (Nat × ACell))) (s c : Nat)
    (h : ∀ p ∈ main, p.1.1 = s) :
    alookup (annSeasonDict main s) c = alookup main (s, c) := by
  induction main with
  | nil => rfl
  | cons p ps ih =>
    have hps : p.1.1 = s := h p (by simp)
    have htl : ∀ q ∈ ps, q.1.1 = s := fun q hq => h q (List.mem_cons_of_mem p hq)
    show alookup (List.filterMap _ (p :: ps)) c = _
    rw [List.filterMap_cons]
    simp only [if_pos hps]
    rw [alookup_cons, alookup_cons]
    by_cases hc : p.1.2 = c
    · rw [if_pos hc, if_pos (show p.1 = (s, c) from Prod.ext hps hc)]
    · rw [if_neg hc, if_neg (fun he : p.1 = (s, c) => hc (by rw [he]))]
      exact ih htl

theorem annWalk_keys {index : List Nat} :
    ∀ (rest : List ARec) (pre : ARec) (stock : List (Nat × ACell))
      (main out : List ((Nat × Nat) × List (Nat × ACell))),
      annWalk index pre rest stock main = some out →
      ∀ k ∈ out.map (·.1), k ∈ main.map (·.1) ∨
        ∃ x ∈ pre :: rest, k = (x.season, x.code) := by
  intro rest
  induction rest with
  | nil =>
    intro pre stock main out h k hk
    simp only [annWalk] at h
    cases ha : anchorDate index pre.year with
    | none => rw [ha] at h; cases h
    | some a =>
      rw [ha] at h
      have hout : out = dinsert main (pre.season, pre.code) (dinsert stock a (acell pre.value)) := by
        simpa using h.symm
      subst hout
      rcases mem_keys_dinsert hk with h' | h'
      · exact Or.inr ⟨pre, by simp, h'⟩
      · exact Or.inl h'
  | cons r rs ih =>
    intro pre stock main out h k hk
    simp only [annWalk] at h
    cases ha : anchorDate index pre.year with
    | none => rw [ha] at h; cases h
    | some a =>
      rw [ha] at h
      simp only [Option.some_bind] at h
      by_cases hcode : pre.code ≠ r.code
      · rw [if_pos hcode] at h
        rcases ih r [] (dinsert main (pre.season, pre.code) (dinsert stock a (acell pre.value)))
            out h k hk with h' | h'
        · rcases mem_keys_dinsert h' with h'' | h''
          · exact Or.inr ⟨pre, by simp, h''⟩
          · exact Or.inl h''
        · obtain ⟨x, hx, hxe⟩ := h'
          exact Or.inr ⟨x, List.mem_cons_of_mem pre hx, hxe⟩
      · rw [if_neg hcode] at h
        rcases ih r (dinsert stock a (acell pre.value)) main out h k hk with h' | h'
        · exact Or.inl h'
        · obtain ⟨x, hx, hxe⟩ := h'
          exact Or.inr ⟨x, List.mem_cons_of_mem pre hx, hxe⟩

theorem annWalk_isSome {index : List Nat} :
    ∀ (rest : List ARec) (pre : ARec) (stock : List (Nat × ACell))
      (main : List ((Nat × Nat) × List (Nat × ACell))),
      (∀ x ∈ pre :: rest, (anchorDate index x.year).isSome) →
      (annWalk index pre rest stock main).isSome := by
  intro rest
  induction rest with
  | nil =>
    intro pre stock main h
    simp only [annWalk]
    cases ha : anchorDate index pre.year with
    | none => exact absurd (h pre (by simp)) (by simp [ha])
    | some a => simp
  | cons r rs ih =>
    intro pre stock main h
    simp only [annWalk]
    cases ha : anchorDate index pre.year with
    | none => exact absurd (h pre (by simp)) (by simp [ha])
    | some a =>
      simp only [Option.some_bind]
      have h' : ∀ x ∈ r :: rs, (anchorDate index x.year).isSome := fun x hx =>
        h x (List.mem_cons_of_mem pre hx)
      by_cases hcode : pre.code ≠ r.code
      · rw [if_pos hcode]
        exact ih r [] _ h'
      · rw [if_neg hcode]
        exact ih r _ main h'

theorem annFold_isSome {index : List Nat} :
    ∀ (l : List ARec) (stock : List (Nat × ACell)),
      (∀ x ∈ l, (anchorDate index x.year).isSome) → (annFold index stock l).isSome := by
  intro l
  induction l with
  | nil => intro stock _; simp [annFold]
  | cons r rs ih =>
    intro stock h
    cases ha : anchorDate index r.year with
    | none => exact absurd (h r (by simp)) (by simp [ha])
    | some a =>
      rw [annFold_cons index stock r rs a ha]
      exact ih _ (fun x hx => h x (List.mem_cons_of_mem r hx))

theorem ffillEntry_congr {α : Type} (c c' : Nat → Option α) (h : ∀ j, c j = c' j) :
    ∀ i, ffillEntry c i = ffillEntry c' i := by
  intro i
  induction i with
  | zero => simpa [ffillEntry] using h 0
  | succ n ih => simp [ffillEntry, h (n + 1), ih]

theorem cellAt_of_get? {α : Type} (f : Frame α) (d e i : Nat) (hnd : f.rowLabels.Nodup)
    (hget : f.rowLabels.get? i = some d) : f.cellAt d e = f.entry i e := by
  unfold Frame.cellAt
  rw [findIdx?_nodup_get? f.rowLabels i 0 d hnd hget]
  simp

/-! ## The season-panel master lemma -/

theorem frameOfDictIC_entry_none {α : Type} (dict : List (Nat × List (Nat × α)))
    (index cols : List Nat) (e : Nat) (h : alookup dict e = none) :
    ∀ j, (frameOfDictIC dict index cols).entry j e = none := by
  intro j
  show (index.get? j).bind _ = none
  cases index.get? j with
  | none => rfl
  | some d =>
    show (if cols.contains e then (alookup dict e).bind _ else none) = none
    by_cases hc : cols.contains e
    · rw [if_pos hc, h]
      rfl
    · rw [if_neg hc]

theorem frameOfDictIC_entry_some {α : Type} (dict : List (Nat × List (Nat × α)))
    (index cols : List Nat) (e : Nat) (dct : List (Nat × α)) (hc : cols.contains e = true)
    (h : alookup dict e = some dct) :
    ∀ j, (frameOfDictIC dict index cols).entry j e =
      (index.get? j).bind (fun d' => alookup dct d') := by
  intro j
  show (index.get? j).bind _ = _
  cases index.get? j with
  | none => rfl
  | some d =>
    show (if cols.contains e then (alookup dict e).bind _ else none) = _
    rw [if_pos hc, h, Option.some_bind, Option.some_bind]

theorem desent_acell (v : Option Int) : desent (acell v) = v := by
  cases v <;> rfl

theorem anchorDate_mem {index : List Nat} {y a : Nat} (h : anchorDate index y = some a) :
    a ∈ index :=
  List.get?_mem h

theorem annSeasonPanel_locf {index column : List Nat} {recs : List ARec} {s : Nat}
    (hidx : index.Sorted (· < ·))
    (hsort : List.Pairwise aord recs)
    (hseason : ∀ r ∈ recs, r.season = s)
    (hanch : ∀ r ∈ recs, (anchorDate index r.year).isSome)
    (hne : recs ≠ []) :
    ∃ f, annSeasonPanel index column recs s = some f ∧
      ∀ d ∈ index, ∀ e ∈ column,
        f.cellAt d e =
          ((recs.filter (fun r => r.code == e && anchorLE index r d)).getLast?).bind (·.value) := by
  cases recs with
  | nil => exact absurd rfl hne
  | cons p rs =>
    obtain ⟨out, hout⟩ := Option.isSome_iff_exists.1 (annWalk_isSome rs p [] [] hanch)
    have hkeys : ∀ q ∈ out, q.1.1 = s := by
      intro q hq
      rcases annWalk_keys rs p [] [] out hout q.1 (List.mem_map.2 ⟨q, hq, rfl⟩) with h' | h'
      · simp at h'
      · obtain ⟨x, hx, hxe⟩ := h'
        rw [hxe]
        exact hseason x hx
    refine ⟨((frameOfDictIC (annSeasonDict out s) index column).ffill).replaceNA, by
      show (annWalk index p rs [] []).map _ = _
      rw [hout]
      rfl, ?_⟩
    intro d hd e he
    obtain ⟨i, hi⟩ := mem_get? hd
    have hnd : index.Nodup := hidx.nodup
    rw [cellAt_of_get? _ d e i hnd hi]
    show (ffillEntry (fun j => (frameOfDictIC (annSeasonDict out s) index column).entry j e) i).bind
      desent = _
    have halook : alookup (annSeasonDict out s) e = alookup out (s, e) :=
      annSeasonDict_lookup out s e hkeys
    have hwl := annWalk_lookup rs p [] [] out e hsort hseason (by simp) hout
    have hcodes : ∀ x ∈ p :: rs, p.code ≤ x.code := by
      intro x hx
      rcases List.mem_cons.1 hx with h' | h'
      · subst h'
        omega
      · rcases (List.pairwise_cons.1 hsort).1 x h' with h'' | h''
        · omega
        · omega
    have hnonecase : alookup out (s, e) = none →
        (ffillEntry (fun j => (frameOfDictIC (annSeasonDict out s) index column).entry j e) i).bind
          desent = none := by
      intro hn
      rw [ffillEntry_eq_none _ (frameOfDictIC_entry_none _ index column e (halook.trans hn)) i]
      rfl
    have hfoldcase : ∀ dct, alookup out (s, e) = some dct →
        annFold index [] ((p :: rs).filter (fun x => x.code == e)) = some dct →
        (ffillEntry (fun j => (frameOfDictIC (annSeasonDict out s) index column).entry j e) i).bind
          desent =
          (((p :: rs).filter (fun r => r.code == e && anchorLE index r d)).getLast?).bind
            (·.value) := by
      intro dct hsome hfold
      have hblock : List.Pairwise (fun a b : ARec => a.year ≤ b.year)
          ((p :: rs).filter (fun x => x.code == e)) := by
        have hsub : List.Pairwise aord ((p :: rs).filter (fun x => x.code == e)) :=
          List.Pairwise.sublist (List.filter_sublist (p :: rs)) hsort
        refine List.Pairwise.imp_of_mem ?_ hsub
        intro a b ha hb hab
        have hac : a.code = e := by simpa using (List.mem_filter.1 ha).2
        have hbc : b.code = e := by simpa using (List.mem_filter.1 hb).2
        rcases hab with h' | h'
        · omega
        · exact h'.2
      obtain ⟨⟨hsrt, horig⟩, hlocf⟩ := annFold_locf hidx _ hblock dct hfold
      have hkeysin : ∀ k ∈ dct.map (·.1), k ∈ index := by
        intro k hk
        obtain ⟨x, _, hax⟩ := horig k hk
        exact anchorDate_mem hax
      have hentry : ∀ j, (frameOfDictIC (annSeasonDict out s) index column).entry j e =
          (index.get? j).bind (fun d' => alookup dct d') :=
        frameOfDictIC_entry_some _ index column e dct
          (List.elem_eq_true_of_mem he) (halook.trans hsome)
      rw [ffillEntry_congr _ _ hentry i, ffill_locf index dct hidx hkeysin hsrt i d hi, hlocf d]
      have hff : ((p :: rs).filter (fun x => x.code == e)).filter
          (fun r => anchorLE index r d) =
          (p :: rs).filter (fun r => r.code == e && anchorLE index r d) := by
        rw [List.filter_filter]
        exact List.filter_congr (fun x _ => Bool.and_comm _ _)
      rw [hff]
      cases ((p :: rs).filter (fun r => r.code == e && anchorLE index r d)).getLast? with
      | none => rfl
      | some r => exact desent_acell r.value
    rcases Nat.lt_trichotomy e p.code with hlt | heq | hgt
    · rw [if_pos hlt] at hwl
      rw [hnonecase (hwl.trans (alookup_nil (s, e)))]
      rw [show (p :: rs).filter (fun r => r.code == e && anchorLE index r d) = [] from
        List.filter_eq_nil_iff.2 (fun x hx => by
          have := hcodes x hx
          simp only [Bool.and_eq_true, beq_iff_eq, decide_eq_true_eq, not_and]
          omega)]
      rfl
    · rw [if_neg (show ¬ e < p.code by omega), if_pos heq] at hwl
      obtain ⟨dct, hdct⟩ := Option.isSome_iff_exists.1
        (annFold_isSome ((p :: rs).filter (fun x => x.code == e)) []
          (fun x hx => hanch x (List.mem_of_mem_filter hx)))
      exact hfoldcase dct (hwl.trans hdct) hdct
    · rw [if_neg (show ¬ e < p.code by omega), if_neg (show ¬ e = p.code by omega)] at hwl
      by_cases hany : (p :: rs).any (fun x => x.code == e) = true
      · rw [if_pos hany] at hwl
        obtain ⟨dct, hdct⟩ := Option.isSome_iff_exists.1
          (annFold_isSome ((p :: rs).filter (fun x => x.code == e)) []
            (fun x hx => hanch x (List.mem_of_mem_filter hx)))
        exact hfoldcase dct (hwl.trans hdct) hdct
      · rw [if_neg hany] at hwl
        rw [hnonecase hwl]
        rw [show (p :: rs).filter (fun r => r.code == e && anchorLE index r d) = [] from
          List.filter_eq_nil_iff.2 (fun x hx => by
            have hxe : ¬ (x.code == e) = true := fun hc =>
              hany (List.any_eq_true.2 ⟨x, hx, hc⟩)
            simp only [Bool.and_eq_true, not_and]
            exact fun hc _ => hxe hc)]
        rfl

/-! ## Shape lemmas for the builds and merges -/

theorem holderWalk_keys_nodup :
    ∀ (rest : List HRec) (pre : HRec) (stock : List (Nat × Int))
      (main : List (Nat × List (Nat × Int))),
      (main.map (·.1)).Nodup → ((holderWalk pre rest stock main).map (·.1)).Nodup := by
  intro rest
  induction rest with
  | nil =>
    intro pre stock main h
    exact keys_dinsert_nodup pre.code _ h
  | cons r rs ih =>
    intro pre stock main h
    simp only [holderWalk]
    by_cases hcode : pre.code ≠ r.code
    · rw [if_pos hcode]
      exact ih r [] _ (keys_dinsert_nodup pre.code _ h)
    · rw [if_neg hcode]
      by_cases hdt : pre.annDt = r.annDt
      · rw [if_pos hdt]
        exact ih r stock main h
      · rw [if_neg hdt]
        exact ih r _ main h

theorem newDates_nil (index rows : List Nat) (h : ∀ d ∈ index, rows.contains d = true) :
    newDates index rows = [] := by
  unfold newDates
  rw [List.filter_eq_nil_iff.2 (fun d hd => by simpa using h d hd)]
  rfl

theorem findIdx?_isSome_of_mem :
    ∀ (l : List Nat) (d : Nat) (n : Nat), d ∈ l →
      ∃ j, List.findIdx? (fun x => x = d) l n = some j := by
  intro l
  induction l with
  | nil => intro d n h; cases h
  | cons x xs ih =>
    intro d n h
    by_cases hx : x = d
    · exact ⟨n, by rw [List.findIdx?_cons, if_pos (by simp [hx])]⟩
    · rcases List.mem_cons.1 h with h' | h'
      · exact absurd h'.symm hx
      · obtain ⟨j, hj⟩ := ih d (n + 1) h'
        exact ⟨j, by rw [List.findIdx?_cons, if_neg (by simp [hx]), hj]⟩

theorem bisect_first_gt (l : List Nat) (key : Nat) (hs : l.Sorted (· < ·)) :
    ∀ a, l.get? (l.countP (fun x => x ≤ key)) = some a →
      key < a ∧ a ∈ l ∧ ∀ d ∈ l, key < d → a ≤ d := by
  induction l with
  | nil => intro a h; cases h
  | cons x xs ih =>
    rw [List.sorted_cons] at hs
    intro a h
    rw [List.countP_cons] at h
    by_cases hx : x ≤ key
    · rw [if_pos (by simpa using hx)] at h
      have h' : xs.get? (xs.countP (fun y => y ≤ key)) = some a := by
        simpa using h
      obtain ⟨h1, h2, h3⟩ := ih hs.2 a h'
      refine ⟨h1, List.mem_cons_of_mem x h2, fun d hd hkd => ?_⟩
      rcases List.mem_cons.1 hd with h4 | h4
      · omega
      · exact h3 d h4 hkd
    · have hz : xs.countP (fun y => y ≤ key) = 0 := by
        rw [List.countP_eq_zero]
        intro b hb
        have := hs.1 b hb
        simp only [decide_eq_true_eq]
        omega
      rw [if_neg (by simpa using hx), hz] at h
      have hax : x = a := by simpa using h
      subst hax
      refine ⟨by omega, by simp, fun d hd _ => ?_⟩
      rcases List.mem_cons.1 hd with h4 | h4
      · omega
      · exact le_of_lt (hs.1 d h4)

theorem holderRewrite_shape (index column : List Nat) (recs : List HRec) (hne : recs ≠ []) :
    ∃ f, holderRewrite index column recs = some f ∧
      f.rowLabels = index ∧ f.colLabels = column := by
  cases recs with
  | nil => exact absurd rfl hne
  | cons p rs =>
    have hdict : holderDict (p :: rs) = some (holderWalk p rs [] []) := rfl
    have hrows : ((frameOfDictI (holderWalk p rs [] []) (indexRange index (p :: rs))).ffill).rowLabels
        = indexRange index (p :: rs) := rfl
    have hrnd : (indexRange index (p :: rs)).Nodup := sortedDedup_nodup _
    have hcnd : (((frameOfDictI (holderWalk p rs [] []) (indexRange index (p :: rs))).ffill).colLabels).Nodup := by
      show ((holderWalk p rs [] []).map (·.1)).Nodup
      exact holderWalk_keys_nodup rs p [] [] (by simp)
    unfold holderRewrite
    rw [hdict, Option.some_bind]
    unfold Frame.reindexRC
    rw [if_pos ⟨hrnd, hcnd⟩]
    exact ⟨_, rfl, rfl, rfl⟩

/-! ## The claims -/

/-- Claim C1 (code bug): the float-volume full build violates LOCF
correctness.  With calendar `[1, 2]` and a single record for code `5` whose
change date is `2`, the built panel carries the value `10` at date `1`,
a date before the entity's first record, where the claim requires null: the
code-change branch of the walk fills every remaining iterator position with
the pending value, with no guard against positions before the record's
change date. -/
theorem c1_float_rewrite_backfills_before_first_record :
    (floatRewrite [1, 2] [5] [⟨5, 2, 10⟩]).map (fun f => (f.cellAt 1 5, f.cellAt 2 5))
      = some (some 10, some 10) := by
  decide

/-- Claim C2 (counterexample): boundary continuity fails across the
financial-indicator merge.  Entity `1` has the known value `7` at date `102`,
the last row of the persisted panel, and the only fetched record is for
entity `2`; yet the merged panel is null for entity `1` at the first new
date `10104`, because the update's fetch has no pre-boundary seeding and the
delta frame starts empty for entities without a new record. -/
theorem c2_merge_boundary_counterexample :
    exAnnPrev.cellAt 102 1 = some 7 ∧
    (annUpdateStore [102, 10104, 10105] [1, 2] [0] 0 exAnnStore
        [⟨2, 1, 331, fun _ => some 3⟩]).bind
        (fun r => (alookup r.1 (0, 1)).map (fun f => (f.cellAt 102 1, f.cellAt 10104 1, r.2)))
      = some (some 7, none, true) := by
  exact ⟨rfl, rfl⟩

/-- Claim C4 (counterexample): the EOD-derivative full build does not reindex
its rows to the trading calendar; the persisted panel's row keys are the
trade dates present in the fetched data, so fetched data covering only date
`3` of a longer calendar yields a panel whose rows are `[3]`. -/
theorem c4_eod_rewrite_rows_counterexample :
    (alookup (eodRewriteStore [0] [5] [⟨5, 3, fun _ => some 1⟩]) 0).map
      (fun f => f.rowLabels) = some [3] := by
  decide

/-- Claim C5 (counterexample): the period anchor is the first calendar date
STRICTLY greater than January 1 of the report year, not the first date
greater than or equal to it: with the calendar `[10101, 10102]` and report
year `1`, the key `Y0101 = 10101` is itself a calendar date, yet the anchor
is `10102`. -/
theorem c5_anchor_strictly_greater_counterexample :
    anchorDate [10101, 10102] 1 = some 10102 ∧ y0101 1 = 10101 ∧
      (10101 : Nat) ∈ [10101, 10102] := by
  decide

/-- Claim C6 (code bug): the float-volume incremental merge does not build
its delta over exactly the missing dates.  With persisted rows `[1]` and
calendar `[1, 2, 3]` the missing dates are `[2, 3]`, but after the first
entity the walk resets its iterator to the full calendar, so the delta frame
has rows `[1, 2, 3]` and the merged panel gains a duplicate row `1`. -/
theorem c6_float_update_delta_domain_bug :
    newDates [1, 2, 3] exFloatLocal.rowLabels = [2, 3] ∧
    (floatDelta [1, 2, 3] [2, 3] [5, 6] [⟨5, 1, 7⟩, ⟨6, 1, 8⟩]).map (fun f => f.rowLabels)
      = some [1, 2, 3] ∧
    ((floatUpdate [1, 2, 3] [5, 6] exFloatLocal [⟨5, 1, 7⟩, ⟨6, 1, 8⟩]).written).map
      (fun f => f.rowLabels) = some [1, 1, 2, 3] := by
  exact ⟨rfl, rfl, rfl⟩

/-- Claim C7 (confirmed): whenever the computed missing-date set is empty,
the holder-number and float-volume merges report already-up-to-date for any
fetched records, and the EOD-derivative merge returns its store unchanged
with nothing written; no fetch result influences the outcome, and since the
persisted state is returned unchanged the same holds on every repeated
invocation. -/
theorem c7_noop_update (index column : List Nat) (localF : Frame Int) (recs : List HRec)
    (frecs : List FRec) (targetCols : List Nat) (svmv : Nat) (store : List (Nat × Frame Int))
    (fetch : List ERec) (desig : Frame Int)
    (h1 : newDates index localF.rowLabels = [])
    (h2 : alookup store svmv = some desig)
    (h3 : newDates index desig.rowLabels = []) :
    holderUpdate index column localF recs = .noop ∧
    floatUpdate index column localF frecs = .noop ∧
    eodUpdateStore index column targetCols svmv store fetch = some (store, false) := by
  refine ⟨?_, ?_, ?_⟩
  · unfold holderUpdate
    rw [if_pos h1]
  · unfold floatUpdate
    rw [if_pos h1]
  · unfold eodUpdateStore
    rw [h2, Option.some_bind, if_pos h3]

theorem c7_noop_update_witness :
    holderUpdate [1] [5] exNoopLocal [⟨5, 1, 0, 7⟩] = .noop ∧
    floatUpdate [1] [5] exNoopLocal [⟨5, 1, 7⟩] = .noop ∧
    eodUpdateStore [1] [5] [0] 0 exNoopStore [] = some (exNoopStore, false) :=
  c7_noop_update [1] [5] exNoopLocal [⟨5, 1, 0, 7⟩] [⟨5, 1, 7⟩] [0] 0 exNoopStore []
    exNoopLocal (by decide) rfl (by decide)

/-- Claim C10 (confirmed): every multi-factor update guard inspects only the
designated factor's persisted panel — `S_VAL_MV` for the EOD job,
`S_LI_ENTRUSTRATE` for the L2 job, `S_FA_EPS_DILUTED` season 1 for the
financial-indicator job; when that panel already contains every calendar
date the update returns its store unchanged with nothing written, whatever
the other panels of the store contain. -/
theorem c10_guard_reads_designated_only (index column targetCols : List Nat)
    (svmv entr eps : Nat) (storeE storeL : List (Nat × Frame Int))
    (storeA : List ((Nat × Nat) × Frame Int)) (fetchE fetchL : List ERec)
    (fetchA : List AERec) (dE dL dA : Frame Int)
    (h1 : alookup storeE svmv = some dE) (h2 : newDates index dE.rowLabels = [])
    (h3 : alookup storeL entr = some dL) (h4 : newDates index dL.rowLabels = [])
    (h5 : alookup storeA (eps, 1) = some dA) (h6 : newDates index dA.rowLabels = []) :
    eodUpdateStore index column targetCols svmv storeE fetchE = some (storeE, false) ∧
    l2UpdateStore index column targetCols entr storeL fetchL = some (storeL, false) ∧
    annUpdateStore index column targetCols eps storeA fetchA = some (storeA, false) := by
  refine ⟨?_, ?_, ?_⟩
  · unfold eodUpdateStore
    rw [h1, Option.some_bind, if_pos h2]
  · unfold l2UpdateStore
    rw [h3, Option.some_bind, if_pos h4]
  · unfold annUpdateStore
    rw [h5, Option.some_bind, if_pos h6]

theorem c10_guard_witness :
    eodUpdateStore [1, 2] [9] [0, 1] 0 exEodStore [] = some (exEodStore, false) ∧
    l2UpdateStore [1, 2] [9] [0, 1] 0 exEodStore [] = some (exEodStore, false) ∧
    annUpdateStore [1, 2] [9] [0, 1] 0 exAnnStore2 [] = some (exAnnStore2, false) :=
  c10_guard_reads_designated_only [1, 2] [9] [0, 1] 0 0 0 exEodStore exEodStore exAnnStore2
    [] [] [] exCoveredPanel exCoveredPanel exCoveredPanel rfl (by decide) rfl (by decide)
    rfl (by decide)

/-- Claim C4 (amended): the holder-number full build does produce a panel
with rows exactly the calendar and columns exactly the universe, in order;
the EOD-derivative full build keeps the universe columns but its rows are
the ascending distinct trade dates of the fetched data, not the calendar. -/
theorem c4_calendar_fidelity_amended (index column : List Nat) (recs : List HRec)
    (erecs : List ERec) (fac : Nat) (hne : recs ≠ []) :
    (∃ f, holderRewrite index column recs = some f ∧
      f.rowLabels = index ∧ f.colLabels = column) ∧
    (eodRewriteFactor column erecs fac).colLabels = column ∧
    (eodRewriteFactor column erecs fac).rowLabels = sortedDedup (erecs.map (·.dt)) :=
  ⟨holderRewrite_shape index column recs hne, rfl, rfl⟩

theorem c4_calendar_fidelity_amended_witness :
    (∃ f, holderRewrite [1, 2] [5] [⟨5, 1, 0, 7⟩] = some f ∧
      f.rowLabels = [1, 2] ∧ f.colLabels = [5]) ∧
    (eodRewriteFactor [5] [⟨6, 3, fun _ => some 1⟩] 0).colLabels = [5] ∧
    (eodRewriteFactor [5] [⟨6, 3, fun _ => some 1⟩] 0).rowLabels
      = sortedDedup (([⟨6, 3, fun _ => some 1⟩] : List ERec).map (·.dt)) :=
  c4_calendar_fidelity_amended [1, 2] [5] [⟨5, 1, 0, 7⟩] [⟨6, 3, fun _ => some 1⟩] 0
    (by decide)

/-- Claim C5 (amended): for a sorted calendar, the anchor of report year `y`
is the first calendar date strictly greater than `y`-January-1 (the spec's
"greater than or equal" holds only when `Y0101` is not itself a calendar
date), and from the anchor forward the season panel carries each entity's
latest anchored value until superseded: every cell equals the value of the
last record of that entity whose anchor is at most the row date. -/
theorem c5_anchor_amended (index column : List Nat) (recs : List ARec) (s y a : Nat)
    (hidx : index.Sorted (· < ·))
    (ha : anchorDate index y = some a)
    (hsort : List.Pairwise aord recs)
    (hseason : ∀ r ∈ recs, r.season = s)
    (hanch : ∀ r ∈ recs, (anchorDate index r.year).isSome)
    (hne : recs ≠ []) :
    (y0101 y < a ∧ a ∈ index ∧ ∀ d ∈ index, y0101 y < d → a ≤ d) ∧
    ∃ f, annSeasonPanel index column recs s = some f ∧
      ∀ d ∈ index, ∀ e ∈ column,
        f.cellAt d e =
          ((recs.filter (fun r => r.code == e && anchorLE index r d)).getLast?).bind
            (·.value) :=
  ⟨bisect_first_gt index (y0101 y) hidx a ha,
   annSeasonPanel_locf hidx hsort hseason hanch hne⟩

theorem c5_anchor_amended_witness :
    (y0101 1 < 10104 ∧ (10104 : Nat) ∈ [102, 10104, 10105]) ∧
    ∃ f, annSeasonPanel [102, 10104, 10105] [1] [⟨1, 1, 2, some 9⟩] 2 = some f ∧
      f.cellAt 102 1 = none ∧ f.cellAt 10104 1 = some 9 ∧ f.cellAt 10105 1 = some 9 := by
  obtain ⟨h1, f, hf, hc⟩ := c5_anchor_amended [102, 10104, 10105] [1] [⟨1, 1, 2, some 9⟩]
    2 1 10104 (by decide) rfl (by decide) (by decide) (by decide) (by decide)
  refine ⟨⟨h1.1, h1.2.1⟩, f, hf, ?_, ?_, ?_⟩
  · rw [hc 102 (by decide) 1 (by decide)]
    decide
  · rw [hc 10104 (by decide) 1 (by decide)]
    decide
  · rw [hc 10105 (by decide) 1 (by decide)]
    decide

/-- Claim C3 (code bug): build/merge equivalence is impossible because the
holder-number merge always raises.  When at least one new date exists and
the fetch is non-empty, the merge appends to the persisted panel a frame
whose rows span the full calendar joined with the announcement dates, so any
persisted row that is also a calendar date is duplicated and the final
`reindex` raises pandas' duplicate-axis `ValueError`; the merge can never
return the full-build panel. -/
theorem c3_holder_update_duplicate_axis (index column : List Nat) (localF : Frame Int)
    (recs : List HRec) (d : Nat)
    (hd : d ∈ localF.rowLabels) (hdi : d ∈ index)
    (hnew : newDates index localF.rowLabels ≠ [])
    (hrec : recs ≠ []) :
    holderUpdate index column localF recs = .err := by
  unfold holderUpdate
  rw [if_neg hnew]
  cases recs with
  | nil => exact absurd rfl hrec
  | cons p rs =>
    have hnd : ¬ (localF.rowLabels ++ indexRange index (p :: rs)).Nodup := by
      intro h
      exact (List.nodup_append.1 h).2.2 hd
        ((mem_sortedDedup _ _).2 (List.mem_append_left _ hdi))
    have hre : ((localF.happend
        ((frameOfDictI (holderWalk p rs [] []) (indexRange index (p :: rs))).ffill)).reindexRC
          index column) = none := by
      unfold Frame.reindexRC
      rw [if_neg (fun hc => hnd hc.1)]
    show (match (localF.happend
        ((frameOfDictI (holderWalk p rs [] []) (indexRange index (p :: rs))).ffill)).reindexRC
          index column with
      | none => UpdResult.err
      | some f => UpdResult.wrote f) = UpdResult.err
    rw [hre]

theorem c3_holder_update_duplicate_axis_witness :
    holderUpdate [1, 2] [5] exHolderLocal [⟨5, 2, 0, 7⟩] = .err :=
  c3_holder_update_duplicate_axis [1, 2] [5] exHolderLocal [⟨5, 2, 0, 7⟩] 1
    (by decide) (by decide) (by decide) (by decide)

/-- Claim C2 (amended): boundary continuity does NOT hold; what is true
instead is that the financial-indicator delta frame is null everywhere in
the column of any entity without a newly fetched record, because the
update's fetch has no pre-boundary seeding — so the merged panel is null at
every leading new date for such an entity regardless of the value carried by
the persisted panel. -/
theorem c2_merge_boundary_amended (index nd column : List Nat) (recs : List ARec)
    (s e : Nat) (f : Frame Int)
    (hno : ∀ r ∈ recs, r.code ≠ e)
    (h : annUpdateDelta index nd column recs s = some f) :
    ∀ d, f.cellAt d e = none := by
  cases recs with
  | nil => simp [annUpdateDelta] at h
  | cons p rs =>
    simp only [annUpdateDelta] at h
    cases hw : annWalk index p rs [] [] with
    | none =>
      rw [hw] at h
      cases h
    | some main =>
      rw [hw] at h
      simp only [Option.map_some'] at h
      injection h with h
      subst h
      intro d
      have hnone : alookup (annSeasonDict main s) e = none := by
        apply alookup_eq_none
        intro q hq
        rw [annSeasonDict] at hq
        obtain ⟨pp, hpp, hq2⟩ := List.mem_filterMap.1 hq
        by_cases hs : pp.1.1 = s
        · rw [if_pos hs] at hq2
          injection hq2 with hq2
          subst hq2
          have hk : pp.1 ∈ main.map (·.1) := List.mem_map_of_mem (·.1) hpp
          rcases annWalk_keys rs p [] [] main hw pp.1 hk with hk' | ⟨x, hx, hk'⟩
          · simp at hk'
          · intro hqe
            exact hno x hx (by rw [hk'] at hqe; exact hqe)
        · rw [if_neg hs] at hq2
          cases hq2
      have hent : ∀ i,
          ((((frameOfDictIC (annSeasonDict main s) nd column).ffill).replaceNA).entry i e)
            = none := by
        intro i
        show (ffillEntry (fun j => (frameOfDictIC (annSeasonDict main s) nd column).entry j e)
          i).bind desent = none
        rw [ffillEntry_eq_none _ (frameOfDictIC_entry_none _ _ _ _ hnone) i]
        rfl
      show ((((frameOfDictIC (annSeasonDict main s) nd column).ffill).replaceNA).rowLabels.findIdx?
          (fun x => x = d)).bind
        (fun i => (((frameOfDictIC (annSeasonDict main s) nd column).ffill).replaceNA).entry i e)
        = none
      cases hfi : ((((frameOfDictIC (annSeasonDict main s) nd column).ffill).replaceNA).rowLabels.findIdx?
          (fun x => x = d)) with
      | none => rfl
      | some i => exact hent i

theorem c2_merge_boundary_amended_witness :
    ∃ f, annUpdateDelta [1, 200] [200] [5] [⟨3, 0, 1, some 4⟩] 1 = some f ∧
      f.cellAt 200 5 = none := by
  refine ⟨_, rfl, c2_merge_boundary_amended [1, 200] [200] [5] [⟨3, 0, 1, some 4⟩] 1 5 _
    (by decide) rfl 200⟩

/-- Claim C8 (confirmed): an explicitly reported null defeats forward-fill
from an earlier value, and no sentinel survives.  For an entity with a
non-null value anchored at `a1` and a reported null anchored at a later
`a2`, the built season panel carries the value on `[a1, a2)` and is truly
null (`none` in the final integer panel) from `a2` on: the null is written
as the `'NA'` sentinel, carried opaquely by the fill pass, and converted
back to a true null afterwards. -/
theorem c8_reported_null_sentinel (index column : List Nat) (r1 r2 : ARec) (s e : Nat)
    (v : Int) (a1 a2 : Nat)
    (hidx : index.Sorted (· < ·))
    (hyear : r1.year ≤ r2.year)
    (hc1 : r1.code = e) (hc2 : r2.code = e)
    (hs1 : r1.season = s) (hs2 : r2.season = s)
    (hv1 : r1.value = some v) (hv2 : r2.value = none)
    (ha1 : anchorDate index r1.year = some a1)
    (ha2 : anchorDate index r2.year = some a2)
    (he : e ∈ column) :
    ∃ f, annSeasonPanel index column [r1, r2] s = some f ∧
      ∀ d ∈ index, (a1 ≤ d → d < a2 → f.cellAt d e = some v) ∧
        (a2 ≤ d → f.cellAt d e = none) := by
  have hsort : List.Pairwise aord [r1, r2] := by
    refine List.Pairwise.cons ?_ (List.pairwise_singleton _ _)
    intro x hx
    rw [List.mem_singleton] at hx
    subst hx
    exact Or.inr ⟨hc1.trans hc2.symm, hyear⟩
  have hseason : ∀ r ∈ [r1, r2], r.season = s := by
    intro r hr
    rcases List.mem_cons.1 hr with h | h
    · subst h; exact hs1
    · rw [List.mem_singleton] at h; subst h; exact hs2
  have hanch : ∀ r ∈ [r1, r2], (anchorDate index r.year).isSome := by
    intro r hr
    rcases List.mem_cons.1 hr with h | h
    · subst h; rw [ha1]; rfl
    · rw [List.mem_singleton] at h; subst h; rw [ha2]; rfl
  obtain ⟨f, hf, hc⟩ := annSeasonPanel_locf hidx hsort hseason hanch (by simp)
  have h12 : a1 ≤ a2 := anchorDate_mono hidx hyear ha1 ha2
  refine ⟨f, hf, fun d hd => ⟨fun hd1 hd2 => ?_, fun hd2 => ?_⟩⟩
  · have han1 : anchorLE index r1 d = true := by
      unfold anchorLE
      rw [ha1]
      show decide (a1 ≤ d) = true
      simp [hd1]
    have han2 : anchorLE index r2 d = false := by
      unfold anchorLE
      rw [ha2]
      show decide (a2 ≤ d) = false
      simp only [decide_eq_false_iff_not]
      omega
    have hp1 : (r1.code == e && anchorLE index r1 d) = true := by
      simp [hc1, han1]
    have hp2 : (r2.code == e && anchorLE index r2 d) = false := by
      simp [han2]
    have hfil : List.filter (fun r => r.code == e && anchorLE index r d) [r1, r2] = [r1] := by
      simp [List.filter_cons, hp1, hp2]
    rw [hc d hd e he, hfil]
    simp [hv1]
  · have han1 : anchorLE index r1 d = true := by
      unfold anchorLE
      rw [ha1]
      show decide (a1 ≤ d) = true
      simp
      omega
    have han2 : anchorLE index r2 d = true := by
      unfold anchorLE
      rw [ha2]
      show decide (a2 ≤ d) = true
      simp [hd2]
    have hp1 : (r1.code == e && anchorLE index r1 d) = true := by
      simp [hc1, han1]
    have hp2 : (r2.code == e && anchorLE index r2 d) = true := by
      simp [hc2, han2]
    have hfil : List.filter (fun r => r.code == e && anchorLE index r d) [r1, r2]
        = [r1, r2] := by
      simp [List.filter_cons, hp1, hp2]
    rw [hc d hd e he, hfil]
    simp [hv2]

theorem c8_reported_null_sentinel_witness :
    ∃ f, annSeasonPanel [102, 10104, 20104, 20105] [4]
        [⟨4, 1, 2, some 9⟩, ⟨4, 2, 2, none⟩] 2 = some f ∧
      f.cellAt 10104 4 = some 9 ∧ f.cellAt 20104 4 = none ∧ f.cellAt 20105 4 = none := by
  obtain ⟨f, hf, hc⟩ := c8_reported_null_sentinel [102, 10104, 20104, 20105] [4]
    ⟨4, 1, 2, some 9⟩ ⟨4, 2, 2, none⟩ 2 4 9 10104 20104 (by decide) (by decide) rfl rfl rfl
    rfl rfl rfl (by decide) (by decide) (by decide)
  exact ⟨f, hf, (hc 10104 (by decide)).1 (by decide) (by decide),
    (hc 20104 (by decide)).2 (by decide), (hc 20105 (by decide)).2 (by decide)⟩

/-- Claim C9 (confirmed): duplicate keys resolve to a single deterministic
value.  In the factor-splitting path, the group cell is the maximum of the
group's present values — it exists whenever one record of the group has a
value, it is attained by a record of the group, and it bounds every value of
the group.  In the per-entity walk path, the stored cell is the value of the
last record in the fixed sort order carrying that entity and announcement
date.  Both are functions of the record stream alone, so repeated runs on
the same input choose the same value. -/
theorem c9_duplicate_resolution (recs : List ERec) (fac d e : Nat) (r0 : ERec) (v0 : Int)
    (hr0 : r0 ∈ recs) (hd0 : r0.dt = d) (he0 : r0.code = e) (hv0 : r0.vals fac = some v0)
    (pre : HRec) (rest : List HRec) (c dd : Nat) (w : Int)
    (hsorted : List.Pairwise hord (pre :: rest))
    (hlast : lastWith (pre :: rest) c dd = some w) :
    (∃ m, groupMax recs fac d e = some m ∧
      (∃ r ∈ recs, r.dt = d ∧ r.code = e ∧ r.vals fac = some m) ∧
      (∀ r ∈ recs, r.dt = d → r.code = e → ∀ u, r.vals fac = some u → u ≤ m)) ∧
    holderLookup (pre :: rest) c dd = some w := by
  constructor
  · have hmem : some v0 ∈ (recs.filter (fun r => r.dt == d && r.code == e)).map
        (fun r => r.vals fac) := by
      rw [← hv0]
      exact List.mem_map_of_mem _ (List.mem_filter.2 ⟨hr0, by simp [hd0, he0]⟩)
    obtain ⟨m, hm⟩ := foldl_omax_isSome _ none v0 hmem
    refine ⟨m, hm, ?_, ?_⟩
    · rcases foldl_omax_mem _ none m hm with h | h
      · cases h
      · obtain ⟨a, haL, haid⟩ := List.mem_filterMap.1 h
        obtain ⟨r, hrf, hra⟩ := List.mem_map.1 haL
        obtain ⟨hr, hp⟩ := List.mem_filter.1 hrf
        simp only [Bool.and_eq_true, beq_iff_eq] at hp
        exact ⟨r, hr, hp.1, hp.2, by rw [hra]; exact haid⟩
    · intro r hr hrd hre u hu
      refine (foldl_omax_ub _ none m hm).2 u (List.mem_filterMap.2 ⟨some u, ?_, rfl⟩)
      rw [← hu]
      exact List.mem_map_of_mem _ (List.mem_filter.2 ⟨hr, by simp [hrd, hre]⟩)
  · have hw := holderWalk_lookup rest pre [] [] c dd hsorted (by simp)
    show walkLookup (holderWalk pre rest [] []) c dd = some w
    rw [hw]
    rcases Nat.lt_trichotomy c pre.code with hlt | heq | hgt
    · have hnone : lastWith (pre :: rest) c dd = none := by
        refine lastWith_none_of_no_code (pre :: rest) c dd (fun r hr => ?_)
        rcases List.mem_cons.1 hr with h | h
        · subst h
          omega
        · have := List.rel_of_pairwise_cons hsorted h
          unfold hord at this
          omega
      rw [hnone] at hlast
      cases hlast
    · rw [if_neg (show ¬ c < pre.code by omega), if_pos heq, hlast]
    · rw [if_neg (show ¬ c < pre.code by omega), if_neg (show ¬ c = pre.code by omega)]
      exact hlast

theorem c9_duplicate_resolution_witness :
    groupMax [⟨5, 1, fun _ => some 3⟩, ⟨5, 1, fun _ => some 7⟩] 0 1 5 = some 7 ∧
    holderLookup [⟨5, 1, 0, 3⟩, ⟨5, 1, 0, 8⟩] 5 1 = some 8 := by
  obtain ⟨⟨m, hm, hmem, hub⟩, hb⟩ := c9_duplicate_resolution
    [⟨5, 1, fun _ => some 3⟩, ⟨5, 1, fun _ => some 7⟩] 0 1 5
    ⟨5, 1, fun _ => some 3⟩ 3 (List.mem_cons_self _ _) rfl rfl rfl
    ⟨5, 1, 0, 3⟩ [⟨5, 1, 0, 8⟩] 5 1 8 (by decide) (by decide)
  exact ⟨by decide, hb⟩
